import Mathlib

/-!
Verification development for the napm package-cache core
(`src/napm/cache.rs`, `src/util.rs`, `src/napm/actions.rs`, `src/error.rs`).

Strings are modelled as `List Char`; SQL tables as lists of row structures.
SQLite specifics modelled where the code depends on them: `LIKE` is
ASCII-case-insensitive with `%`/`_` wildcards, `=` is binary,
`LOWER` lowercases ASCII only, `ORDER BY ... LIMIT 1` picks a row of
minimal key (first in row order among minima; SQLite leaves ties
unspecified, so theorems that depend on the choice assume a unique
minimum).  UNIQUE-constraint enforcement on inserts is not modelled.
-/

/-- Strings of the modelled program: lists of characters. -/
abbrev Str := List Char

/-- Shorthand turning a Lean string literal into the model's string type. -/
def str (s : String) : Str := s.toList

/-- ASCII lowercase of one character (SQLite `LOWER` semantics; the Rust
side uses Unicode `to_lowercase`, which agrees on ASCII data). -/
def lowerC (c : Char) : Char :=
  if 'A' ≤ c ∧ c ≤ 'Z' then Char.ofNat (c.toNat + 32) else c

/-- ASCII lowercase of a string. -/
def lowerS (s : Str) : Str := s.map lowerC

/-- `strStarts p s` = `s` starts with `p` (Rust `str::starts_with`). -/
def strStarts : Str → Str → Bool
  | [], _ => true
  | _ :: _, [] => false
  | p :: ps, c :: cs => p = c && strStarts ps cs

/-- `strContains s t`: `t` occurs in `s` as a contiguous substring
(SQL `LIKE binary '%t%'` on already-lowercased operands / Rust `contains`). -/
def strContains (s t : Str) : Bool :=
  match s with
  | [] => strStarts t []
  | _ :: rest => strStarts t s || strContains rest t

/-- SQLite `LIKE` matching: `%` matches any run, `_` any single character,
other characters match ASCII-case-insensitively. -/
def likeMatch : Str → Str → Bool
  | [], s => s.isEmpty
  | p :: ps, s =>
      if p = '%' then
        (s.tails).any (fun t => likeMatch ps t)
      else
        match s with
        | [] => false
        | c :: s' =>
            if p = '_' then likeMatch ps s'
            else lowerC p = lowerC c && likeMatch ps s'

/-- The error enumeration of `src/error.rs` (foreign payloads elided). -/
inductive Error where
  | NothingToDo
  | ConfigParse
  | InternalIo
  | InternalAlpm
  | NoAutoRepairError
  | Memory
  | System
  | BadPerms
  | NoPETool
  | NoShell
  | DeniedPE (cmd : Str)
  | Stopped
  | NoResults
  | PackageAlreadyInstalled (name : Str)
  | UnexpectedType
  | WrongArgs
  | DiskSpace
  | Handle
  | DbUnlock
  | TransRelease
  | TransInit
  | TransPrepare
  | TransCommit
  | UnsatisfiedDeps
  | ConflictingDeps
  | FileConflicts
  | Conflicts
  | DbRefresh
  | Upgrade
  | OpenArchive
  | ExtractArchive
  | FindPkg
  | NoValidPackage
  | PackageNotFound (name : Str)
  | PackageNotInLocalDb (name : Str)
  | SigLevelParse (s : Str)
  | Update
  | TransAddPkg
  | TransRemovePkg
  | CacheDatabaseError
  | UpgradeRequired
deriving DecidableEq, Repr

/-- The `Pkg` record of `src/pkg.rs`. -/
structure Pkg where
  name : Str
  version : Str
  repo : Str
  desc : Str
deriving DecidableEq, Repr

/-- One row of the `package_desc` table. -/
structure PkgRow where
  name : Str
  version : Str
  desc : Str
  repo : Str
  files_done : Bool
deriving DecidableEq, Repr

/-- One row of the `package_files` table. -/
structure FileRow where
  repo : Str
  name : Str
  path : Str
deriving DecidableEq, Repr

/-- The cache database: the two tables, as lists in rowid order. -/
structure Db where
  descs : List PkgRow
  files : List FileRow
deriving DecidableEq, Repr

/-- Index of the first occurrence of `r` in the configured repository list
(the first matching `WHEN` of the generated `CASE` expression). -/
def repoIdx (repos : List Str) (r : Str) : Option Nat :=
  match repos with
  | [] => none
  | x :: xs => if x = r then some 0 else (repoIdx xs r).map (· + 1)

/-- `Napm::repo_priority_with_column_name`: the value of
`CASE repo WHEN r₀ THEN 0 WHEN r₁ THEN 1 ... ELSE 1000 END`. -/
def repo_priority (repos : List Str) (r : Str) : Nat :=
  (repoIdx repos r).getD 1000

/-- One step of the minimal-priority scan: keep the earlier candidate on
ties, replace it on a strictly smaller priority. -/
def argminStep (repos : List Str) (acc : Option Str) (r : Str) : Option Str :=
  match acc with
  | none => some r
  | some best =>
      if repo_priority repos r < repo_priority repos best then some r else acc

/-- First element of minimal priority in a list of repository names
(the row `ORDER BY priority LIMIT 1` picks; ties resolved by row order,
which SQLite leaves unspecified). -/
def argminPrio (repos : List Str) (l : List Str) : Option Str :=
  l.foldl (argminStep repos) none

/-- The descriptor rows stored under a package name. -/
def rowsFor (db : Db) (n : Str) : List PkgRow :=
  db.descs.filter (fun r => r.name = n)

/-- The repository the priority subquery
`SELECT repo FROM package_desc WHERE name = ?1 ORDER BY prio LIMIT 1` yields. -/
def resolveRepo (repos : List Str) (db : Db) (n : Str) : Option Str :=
  argminPrio repos ((rowsFor db n).map (fun r => r.repo))

/-- `Napm::pkg_exists`: `SELECT 1 FROM package_desc WHERE name = ?1` has a row. -/
def pkg_exists (db : Db) (pkg_name : Str) : Bool :=
  db.descs.any (fun r => r.name = pkg_name)

/-- `Napm::info`.  The query selects `name, version, repo, desc` (in that
order) but the row mapper reads column 2 into `Pkg.desc` and column 3 into
`Pkg.repo`, so the stored `repo` and `desc` land in each other's fields. -/
def info (repos : List Str) (db : Db) (pkg_name : Str) : Except Error Pkg :=
  match resolveRepo repos db pkg_name with
  | none => .error (Error.PackageNotFound pkg_name)
  | some rp =>
      match db.descs.filter (fun r => r.name = pkg_name ∧ r.repo = rp) with
      | [] => .error (Error.PackageNotFound pkg_name)
      | r :: _ => .ok ⟨r.name, r.version, r.desc, r.repo⟩

/-- `Napm::files`: paths of the priority-resolved repository, each with `/`
prepended; `AND path NOT LIKE '%/'` filters directories unless `with_dirs`. -/
def files (repos : List Str) (db : Db) (pkg_name : Str) (with_dirs : Bool) :
    Except Error (List Str) :=
  if pkg_exists db pkg_name then
    .ok (((db.files.filter
      (fun f => f.name = pkg_name ∧ some f.repo = resolveRepo repos db pkg_name ∧
        (with_dirs || !(likeMatch (str "%/") f.path)))).map
          (fun f => '/' :: f.path)))
  else
    .error (Error.PackageNotFound pkg_name)

/-- SQL join of `package_files f` with `package_desc d` on name and repo. -/
def joinFilesDescs (db : Db) : List (PkgRow × FileRow) :=
  db.files.foldr
    (fun f acc =>
      ((db.descs.filter (fun d => d.name = f.name ∧ d.repo = f.repo)).map
        (fun d => (d, f))) ++ acc)
    []

/-- Binary (codepoint) strict order on strings — SQLite's default collation. -/
def strLt : Str → Str → Bool
  | [], [] => false
  | [], _ :: _ => true
  | _ :: _, [] => false
  | a :: xs, b :: ys =>
      if a.val < b.val then true
      else if b.val < a.val then false
      else strLt xs ys

/-- `ORDER BY d.name, f.path` comparison key. -/
def rowPairLe (x y : PkgRow × FileRow) : Bool :=
  strLt x.1.name y.1.name ||
    (x.1.name = y.1.name && !(strLt y.2.path x.2.path))

/-- Insertion into a sorted list (model of the SQL `ORDER BY`). -/
def insSorted (le : α → α → Bool) (x : α) : List α → List α
  | [] => [x]
  | y :: ys => if le x y then x :: y :: ys else y :: insSorted le x ys

/-- Insertion sort (model of the SQL `ORDER BY`). -/
def sortByKey (le : α → α → Bool) : List α → List α
  | [] => []
  | x :: xs => insSorted le x (sortByKey le xs)

/-- `Napm::find_packages_by_file`: every joined row whose `/`-prefixed path
equals (`exact`) or `LIKE`-matches `%path` (non-exact), restricted to the
priority-resolved repository per name, ordered by `d.name, f.path`. -/
def find_packages_by_file (repos : List Str) (db : Db) (path : Str)
    (exact : Bool) : List (Pkg × Str) :=
  let cond : FileRow → Bool := fun f =>
    if exact then '/' :: f.path = path else likeMatch ('%' :: path) ('/' :: f.path)
  let rows := (joinFilesDescs db).filter
    (fun df => cond df.2 && some df.1.repo = resolveRepo repos db df.1.name)
  (sortByKey rowPairLe rows).map
    (fun df => (⟨df.1.name, df.1.version, df.1.repo, df.1.desc⟩, '/' :: df.2.path))

/-- The fragment normalisation at the head of `Napm::find`
(`src/napm/actions.rs`): prepend `/` when absent; with `exact`, rewrite a
leading `/bin/`, `/lib/`, `/lib64/` or `/sbin/` to its `/usr` form
(first matching part only). -/
def find_normalize (file : Str) (exact : Bool) : Str :=
  let f := if strStarts (str "/") file then file else '/' :: file
  if exact then
    if strStarts (str "/bin/") f then str "/usr" ++ f
    else if strStarts (str "/lib/") f then str "/usr" ++ f
    else if strStarts (str "/lib64/") f then str "/usr" ++ f
    else if strStarts (str "/sbin/") f then str "/usr" ++ f
    else f
  else f

/-- `run_cache_update` (`src/util.rs`): prompt, then either run the update
command or fail with `DeniedPE`.  `userConfirms` is the interactive answer,
`updateResult` the outcome of the spawned `napm update`. -/
def run_cache_update (userConfirms : Bool) (updateResult : Except Error Unit) :
    Except Error Unit :=
  if userConfirms then updateResult else .error (Error.DeniedPE (str "napm update"))

/-- `require_cache` (`src/util.rs`): `Ok(())` when the cache file exists,
otherwise it *runs the cache rebuild* and propagates its outcome.  The
boolean in the result records whether the rebuild was triggered. -/
def require_cache (cacheExists : Bool) (rebuild : Except Error Unit) :
    Bool × Except Error Unit :=
  if cacheExists then (false, .ok ()) else (true, rebuild)

/-- UTF-8 byte width of a character (Rust `str::len` counts bytes). -/
def utf8Len (c : Char) : Nat :=
  if c.val < 0x80 then 1 else if c.val < 0x800 then 2
  else if c.val < 0x10000 then 3 else 4

/-- Byte length of a string, as Rust `str::len` returns it. -/
def byteLen (s : Str) : Nat := (s.map utf8Len).sum

/-- Truncation-free distance of two naturals (`usize::abs_diff`). -/
def absDiff (m n : Nat) : Nat := if m ≤ n then n - m else m - n

/-- Inner loop of `Napm::levenshtein_cutoff`: computes the written cells
`curr[1..]` of the next row.  `prevTail` is the previous row from index `j`
on, `left` the value just written at `curr[j]`. -/
def levRowRec (ca : Char) : List Char → List Nat → Nat → List Nat
  | [], _, _ => []
  | cb :: bs, prevTail, left =>
      let diag := prevTail.headD 0
      let up := (prevTail.drop 1).headD 0
      let cost : Nat := if ca = cb then 0 else 1
      let v := min (up + 1) (min (left + 1) (diag + cost))
      v :: levRowRec ca bs (prevTail.drop 1) v

/-- Outer loop of `Napm::levenshtein_cutoff`.  The two buffers have length
`byteLen b + 1` (the Rust code sizes its `Vec`s by *byte* length); a row
writes only the first `b.length + 1` cells, the rest keep stale values, as
in the source. -/
def levLoop (b : Str) (maxDist : Nat) :
    Str → Nat → List Nat → List Nat → Option (List Nat)
  | [], _, prev, _ => some prev
  | ca :: rest, i, prev, curr =>
      let row := levRowRec ca b prev (i + 1)
      let minRow := row.foldl min (i + 1)
      if minRow > maxDist then none
      else levLoop b maxDist rest (i + 1) (((i + 1) :: row) ++ curr.drop (b.length + 1)) prev

/-- `Napm::levenshtein_cutoff`: length pre-check on *byte* lengths, bounded
two-row dynamic programme, final cell read at byte index `lb`. -/
def levenshtein_cutoff (a b : Str) (max_dist : Nat) : Option Nat :=
  let la := byteLen a
  let lb := byteLen b
  if absDiff la lb > max_dist then none
  else
    match levLoop b max_dist a 0 (List.range (lb + 1)) (List.replicate (lb + 1) 0) with
    | none => none
    | some prev =>
        let d := prev.getD lb 0
        if d ≤ max_dist then some d else none

/-- Specification: the textbook Levenshtein edit distance on char lists. -/
def levDist : Str → Str → Nat
  | [], ys => ys.length
  | x :: xs, [] => (x :: xs).length
  | x :: xs, y :: ys =>
      if x = y then levDist xs ys
      else 1 + min (levDist xs (y :: ys)) (min (levDist (x :: xs) ys) (levDist xs ys))
termination_by a b => a.length + b.length

/-- Specification row of the dynamic programme: the distances from `ra`
(the processed prefix of `a`, reversed) to the reversed processed prefixes
of `b`, starting from `rb` and consuming `bs`. -/
def rowSpecFrom (ra rb : Str) : Str → List Nat
  | [] => [levDist ra rb]
  | cb :: bs => levDist ra rb :: rowSpecFrom ra (cb :: rb) bs

/-- `Napm::tokenize` helper: maximal alphanumeric runs of a string (ASCII
alphanumerics; the Rust predicate is Unicode-wide but agrees on ASCII). -/
def tokenizeCore : Str → Str → List Str
  | [], acc => if acc.isEmpty then [] else [acc.reverse]
  | c :: cs, acc =>
      if c.isAlpha || c.isDigit then tokenizeCore cs (c :: acc)
      else if acc.isEmpty then tokenizeCore cs []
      else acc.reverse :: tokenizeCore cs []

/-- `Napm::tokenize`: split on non-alphanumerics, drop empties, lowercase. -/
def tokenize (s : Str) : List Str := (tokenizeCore s []).map lowerS

/-- `Vec::join` of the search terms. -/
def strJoin (sep : Str) : List Str → Str
  | [] => []
  | [x] => x
  | x :: y :: xs => x ++ sep ++ strJoin sep (y :: xs)

/-- `SELECT DISTINCT LOWER(name) FROM package_desc` (first-occurrence
order; the order is unobservable downstream). -/
def distinctLowerNames (db : Db) : List Str :=
  (db.descs.map (fun r => lowerS r.name)).foldl
    (fun acc n => if n ∈ acc then acc else acc ++ [n]) []

/-- `Napm::expand_query_words`: each query word, plus every distinct
lowercased package name whose byte-length differs by at most 2 and whose
bounded Levenshtein distance to some word is defined (set semantics). -/
def expand_query_words (db : Db) (query_words : List Str) : List Str :=
  query_words.foldl
    (fun acc q =>
      let acc1 := if q ∈ acc then acc else acc ++ [q]
      (distinctLowerNames db).foldl
        (fun acc2 w =>
          if absDiff (byteLen w) (byteLen q) > 2 then acc2
          else if (levenshtein_cutoff w q 2).isSome then
            (if w ∈ acc2 then acc2 else acc2 ++ [w])
          else acc2)
        acc1)
    []

/-- The `matched` CTE of `Napm::select_candidates`: rows whose lowered name
or description `LIKE`-matches `%q%` for some expanded word `q`. -/
def matchedRows (db : Db) (query_words : List Str) : List PkgRow :=
  db.descs.filter (fun r =>
    query_words.any (fun q =>
      likeMatch ('%' :: (q ++ ['%'])) (lowerS r.name) ||
        likeMatch ('%' :: (q ++ ['%'])) (lowerS r.desc)))

/-- `Napm::select_candidates`: the matched rows, restricted per package
name to the priority-minimal repository *within the matched set*. -/
def select_candidates (repos : List Str) (db : Db) (query_words : List Str) :
    List Pkg :=
  let matched := matchedRows db query_words
  (matched.filter (fun d =>
    some d.repo =
      argminPrio repos ((matched.filter (fun d2 => d2.name = d.name)).map
        (fun r => r.repo)))).map
    (fun d => ⟨d.name, d.version, d.repo, d.desc⟩)

/-- `Napm::compute_df` for one word: in how many candidates the word occurs
as a whole token of the lowercased `name desc` text. -/
def dfCount (candidates : List Pkg) (q : Str) : Nat :=
  (candidates.filter (fun pkg =>
    (tokenize (lowerS pkg.name ++ [' '] ++ lowerS pkg.desc)).any
      (fun t => t = q))).length

/-- `Napm::fuzzy_weight`: `(3 - d)` as a real number. -/
def fuzzy_weight (d : Nat) : ℝ := ((3 - d : Nat) : ℝ)

/-- Score contribution of one query word for one candidate
(`Napm::score_packages`, inner loop).  Floating point is modelled by the
reals; `ln` is `Real.log`. -/
noncomputable def scoreWord (candidates : List Pkg) (pkg : Pkg) (q : Str) : ℝ :=
  let total_docs : ℝ := ((max candidates.length 1 : Nat) : ℝ)
  let df_q : ℝ := ((max (dfCount candidates q) 1 : Nat) : ℝ)
  let idf : ℝ := Real.log (total_docs / df_q)
  let name_lc := lowerS pkg.name
  let desc_tokens := tokenize (lowerS pkg.desc)
  (if strContains name_lc q then 5.0 * idf else 0) +
  (if q ∈ desc_tokens then 1.5 * idf else 0) +
  ((name_lc :: desc_tokens).foldl
    (fun s token =>
      if absDiff (byteLen token) (byteLen q) > 2 then s
      else
        match levenshtein_cutoff token q 2 with
        | some d => s + fuzzy_weight d * idf
        | none => s)
    0)

/-- Total score of one candidate: sum over the original query words. -/
noncomputable def scorePkg (candidates : List Pkg) (query_words : List Str)
    (pkg : Pkg) : ℝ :=
  query_words.foldl (fun s q => s + scoreWord candidates pkg q) 0

/-- `Napm::score_packages`: score every candidate, keep those with a
strictly positive score. -/
noncomputable def score_packages (candidates : List Pkg)
    (query_words : List Str) : List (ℝ × Pkg) :=
  (candidates.map (fun pkg => (scorePkg candidates query_words pkg, pkg))).filter
    (fun sp => 0 < sp.1)

/-- The final stable descending sort by score in `Napm::search`. -/
noncomputable def sortScoredDesc (l : List (ℝ × Pkg)) : List (ℝ × Pkg) :=
  sortByKey (fun x y => y.1 < x.1) l

/-- `Napm::search`: tokenize, expand, select, score, rank. -/
noncomputable def search (repos : List Str) (db : Db) (search_terms : List Str) :
    List Pkg :=
  let query_words := tokenize (strJoin [' '] search_terms)
  if query_words = [] then []
  else
    let expanded := expand_query_words db query_words
    let candidates := select_candidates repos db expanded
    if candidates = [] then []
    else (sortScoredDesc (score_packages candidates query_words)).map (fun sp => sp.2)

/-- The `%TAG%`/value scan of the desc pass in `Napm::update_cache`: each
recognised tag consumes the following line into its slot (later
occurrences overwrite earlier ones). -/
def parse_desc_loop : List Str → Option Str → Option Str → Option Str →
    Option Str × Option Str × Option Str
  | [], n, v, d => (n, v, d)
  | tag :: rest, n, v, d =>
      if tag = str "%NAME%" then
        match rest with
        | [] => (none, v, d)
        | val :: rest2 => parse_desc_loop rest2 (some val) v d
      else if tag = str "%VERSION%" then
        match rest with
        | [] => (n, none, d)
        | val :: rest2 => parse_desc_loop rest2 n (some val) d
      else if tag = str "%DESC%" then
        match rest with
        | [] => (n, v, none)
        | val :: rest2 => parse_desc_loop rest2 n v (some val)
      else parse_desc_loop rest n v d

/-- Parsed `NAME`, `VERSION`, `DESC` fields of a desc entry's lines. -/
def parse_desc_fields (content : List Str) :
    Option Str × Option Str × Option Str :=
  parse_desc_loop content none none none

/-- One archive entry, already split into its
`<identifier>/<file-kind>` path and its body's lines. -/
structure Entry where
  id : Str
  fname : Str
  content : List Str
deriving DecidableEq, Repr

/-- Result of a step of the updater: success, a recoverable `Err`, or an
abort through a panicking `unwrap`. -/
inductive Outcome (α : Type) where
  | ok (a : α)
  | err (e : Error)
  | fatal
deriving DecidableEq, Repr

/-- A statement executed inside the per-package files transaction. -/
inductive TxOp where
  | delFiles (repo name : Str)
  | insFile (repo name path : Str)
  | setDone (repo name : Str)
deriving DecidableEq, Repr

/-- Effect of one transaction statement on the database. -/
def applyOp (db : Db) : TxOp → Db
  | .delFiles rp n =>
      { db with files := db.files.filter (fun f => !(f.repo = rp ∧ f.name = n)) }
  | .insFile rp n p => { db with files := db.files ++ [⟨rp, n, p⟩] }
  | .setDone rp n =>
      { db with descs := db.descs.map (fun r =>
          if r.repo = rp ∧ r.name = n then ⟨r.name, r.version, r.desc, r.repo, true⟩
          else r) }

/-- An open SQLite transaction: `committed` is what any reader sees,
`pending` the uncommitted working state. -/
structure TxState where
  committed : Db
  pending : Db
deriving DecidableEq, Repr

/-- `Connection::transaction()`. -/
def beginTx (db : Db) : TxState := ⟨db, db⟩

/-- Execute one statement inside the transaction. -/
def txStep (s : TxState) (op : TxOp) : TxState := ⟨s.committed, applyOp s.pending op⟩

/-- Execute a statement sequence inside the transaction. -/
def runOps (s : TxState) (ops : List TxOp) : TxState := ops.foldl txStep s

/-- `tx.commit()`: the pending state becomes visible. -/
def commitTx (s : TxState) : Db := s.pending

/-- A crash or error before `commit`: readers keep the committed state. -/
def crashTx (s : TxState) : Db := s.committed

/-- The statement sequence of the files-pass transaction: delete old rows,
insert every content line after the header, set `files_done`. -/
def replace_files_ops (repo name : Str) (content : List Str) : List TxOp :=
  .delFiles repo name ::
    ((content.drop 1).map (fun l => .insFile repo name l)) ++ [.setDone repo name]

/-- `INSERT OR REPLACE` into `package_desc` keyed by `(repo, name)`. -/
def upsert_desc (row : PkgRow) (descs : List PkgRow) : List PkgRow :=
  (descs.filter (fun r => !(r.repo = row.repo ∧ r.name = row.name))) ++ [row]

/-- In-memory `id_to_pkg` map: insert by prepending, lookup first match. -/
def lookupId (m : List (Str × Str)) (k : Str) : Option Str :=
  (m.find? (fun p => p.1 = k)).map (fun p => p.2)

/-- State threaded through the two passes of `Napm::update_cache`:
the database, the `id_to_pkg` map, and the identifiers actually
parsed and inserted (instrumentation for the incrementality claim). -/
structure UpdState where
  db : Db
  idMap : List (Str × Str)
  processed : List Str
deriving DecidableEq, Repr

/-- The `name-version` identifiers already fully cached for a repository:
`SELECT name || '-' || version FROM package_desc WHERE repo = ? AND files_done`. -/
def cachedSet (repo : Str) (db : Db) : List Str :=
  (db.descs.filter (fun r => r.repo = repo ∧ r.files_done)).map
    (fun r => r.name ++ str "-" ++ r.version)

/-- The desc-pass closure of `Napm::update_cache` for one entry.  A desc
entry without `%NAME%` (or without `%VERSION%`) hits `Option::unwrap` and
aborts the process — modelled by `Outcome.fatal`. -/
def desc_step (repo : Str) (cached : List Str) (st : UpdState) (e : Entry) :
    Outcome UpdState :=
  if e.fname ≠ str "desc" ∨ e.id ∈ cached then .ok st
  else
    match parse_desc_fields e.content with
    | (none, _, _) => .fatal
    | (some _, none, _) => .fatal
    | (some n, some v, d) =>
        .ok ⟨{ st.db with descs := upsert_desc ⟨n, v, d.getD [], repo, false⟩ st.db.descs },
             (e.id, n) :: st.idMap,
             st.processed ++ [e.id]⟩

/-- The files-pass closure of `Napm::update_cache` for one entry: skip
cached identifiers, warn-and-skip identifiers with no desc match, and
otherwise run the replace-files transaction to completion and commit. -/
def files_step (repo : Str) (cached : List Str) (st : UpdState) (e : Entry) :
    Outcome UpdState :=
  if e.fname ≠ str "files" ∨ e.id ∈ cached then .ok st
  else
    match lookupId st.idMap e.id with
    | none => .ok st
    | some pkgName =>
        .ok { st with
          db := commitTx (runOps (beginTx st.db) (replace_files_ops repo pkgName e.content)) }

/-- Short-circuiting fold of a pass over the archive entries. -/
def foldO (f : UpdState → Entry → Outcome UpdState) :
    UpdState → List Entry → Outcome UpdState
  | st, [] => .ok st
  | st, e :: es =>
      match f st e with
      | .ok st2 => foldO f st2 es
      | .err er => .err er
      | .fatal => .fatal

/-- One repository's processing inside `Napm::update_cache`: compute the
cached identifier set, run the desc pass, then the files pass.  Returns
the new database and the identifiers parsed and inserted. -/
def update_cache_repo (repo : Str) (entries : List Entry) (db : Db) :
    Outcome (Db × List Str) :=
  let cached := cachedSet repo db
  match foldO (desc_step repo cached) ⟨db, [], []⟩ entries with
  | .ok st1 =>
      match foldO (files_step repo cached) st1 entries with
      | .ok st2 => .ok (st2.db, st2.processed)
      | .err er => .err er
      | .fatal => .fatal
  | .err er => .err er
  | .fatal => .fatal

/-- Concrete cache used by the `info` claim: one `firefox` row. -/
def dbSwap : Db :=
  ⟨[⟨str "firefox", str "1.0", str "web browser", str "extra", true⟩], []⟩

/-- A configuration listing only the repository `extra`. -/
def cfgExtra : List Str := [str "extra"]

/-- Repository names `r`, `rx`, `rxx`, …: `r` followed by `i` times `x`. -/
def repoName (i : Nat) : Str := 'r' :: List.replicate i 'x'

/-- A configuration with 1002 repositories (positions 0 … 1001). -/
def cfgBig : List Str := (List.range 1002).map repoName

/-- The last configured repository of `cfgBig`, at position 1001. -/
def rLast : Str := repoName 1001

/-- A cache holding `p` both in the listed `rLast` and the unlisted `Z`. -/
def dbPrio : Db :=
  ⟨[⟨str "p", str "1", [], rLast, true⟩, ⟨str "p", str "1", [], str "Z", true⟩], []⟩

/-- A two-repository configuration `A`, `B` (positions 0 and 1). -/
def cfgAB : List Str := [str "A", str "B"]

/-- A cache holding `p` in both `A` and `B`. -/
def dbAB : Db :=
  ⟨[⟨str "p", str "2", [], str "B", true⟩, ⟨str "p", str "1", [], str "A", true⟩], []⟩

/-- The two-candidate cache of the search-relevance claim. -/
def dbBrowse : Db :=
  ⟨[⟨str "firefox", str "1.0", str "web browser", str "extra", true⟩,
    ⟨str "chromium", str "2.0", str "web browser", str "extra", true⟩], []⟩

/-- A one-package cache owning `usr/bin/gcc`, with a directory row. -/
def dbGcc : Db :=
  ⟨[⟨str "gcc", str "13", str "compiler", str "core", true⟩],
   [⟨str "core", str "gcc", str "usr/bin/"⟩, ⟨str "core", str "gcc", str "usr/bin/gcc"⟩]⟩

/-- The configuration listing only `core`. -/
def cfgCore : List Str := [str "core"]

/-- The descriptor `find_packages_by_file` returns for `dbGcc`'s row. -/
def pkgGcc : Pkg := ⟨str "gcc", str "13", str "core", str "compiler"⟩

/-- A desc entry whose content has no `%NAME%` tag. -/
def descNoName : Entry := ⟨str "a-1", str "desc", [str "%VERSION%", str "1.0"]⟩

/-- A well-formed one-package archive (desc and files entries). -/
def entsIdem : List Entry :=
  [⟨str "a-1", str "desc", [str "%NAME%", str "a", str "%VERSION%", str "1"]⟩,
   ⟨str "a-1", str "files", [str "%FILES%", str "usr/bin/a"]⟩]

/-- The cache produced by one run of the updater on `entsIdem`. -/
def dbIdem1 : Db :=
  ⟨[⟨str "a", str "1", [], str "core", true⟩],
   [⟨str "core", str "a", str "usr/bin/a"⟩]⟩

/-- Rows of `package_files` for one `(repo, name)` key, in rowid order. -/
def packageFilesOf (db : Db) (rp n : Str) : List Str :=
  (db.files.filter (fun f => f.repo = rp ∧ f.name = n)).map (fun f => f.path)

/-- The `files_done` flags of the descriptor rows of one `(repo, name)` key. -/
def filesDoneFor (db : Db) (rp n : Str) : List Bool :=
  (db.descs.filter (fun r => r.repo = rp ∧ r.name = n)).map (fun r => r.files_done)

theorem charOfNat_toNat (n : Nat) (h : n.isValidChar) : (Char.ofNat n).toNat = n := by
  simp [Char.ofNat, dif_pos h, Char.ofNatAux, Char.toNat, UInt32.toNat, BitVec.toNat_ofNatLt]

theorem uppercase_toNat {c : Char} (h : 'A' ≤ c ∧ c ≤ 'Z') :
    65 ≤ c.toNat ∧ c.toNat ≤ 90 := by
  rcases h with ⟨h1, h2⟩
  rw [Char.le_def] at h1 h2
  exact ⟨h1, h2⟩

theorem lowerC_eq_slash (c : Char) : lowerC c = '/' ↔ c = '/' := by
  unfold lowerC
  split
  · next h =>
    have hn := uppercase_toNat h
    constructor
    · intro he
      exfalso
      have hv : (c.toNat + 32).isValidChar := by left; omega
      have h2 := charOfNat_toNat (c.toNat + 32) hv
      rw [he] at h2
      have h3 : ('/').toNat = 47 := by decide
      omega
    · intro he
      exfalso
      rw [he] at h
      exact absurd h (by decide)
  · simp

theorem repoIdx_lt_length {repos : List Str} {r : Str} {i : Nat}
    (h : repoIdx repos r = some i) : i < repos.length := by
  induction repos generalizing i with
  | nil => simp [repoIdx] at h
  | cons x xs ih =>
      rw [repoIdx] at h
      split at h
      · simp at h
        simp [List.length_cons]
        omega
      · cases hx : repoIdx xs r with
        | none => rw [hx] at h; simp at h
        | some j =>
            rw [hx] at h
            simp at h
            have := ih hx
            simp [List.length_cons]
            omega

theorem repoIdx_eq_none_of_not_mem {repos : List Str} {r : Str}
    (h : r ∉ repos) : repoIdx repos r = none := by
  induction repos with
  | nil => rfl
  | cons x xs ih =>
      rw [repoIdx]
      rw [List.mem_cons] at h
      push_neg at h
      rw [if_neg (by intro hx; exact h.1 hx.symm), ih h.2]
      rfl

theorem prio_listed_lt_unlisted {repos : List Str} {r s : Str}
    (hr : r ∈ repos) (hs : s ∉ repos) (hlen : repos.length ≤ 1000) :
    repo_priority repos r < repo_priority repos s := by
  have hidx : ∃ i, repoIdx repos r = some i := by
    induction repos with
    | nil => simp at hr
    | cons x xs ih =>
        rw [repoIdx]
        by_cases hx : x = r
        · exact ⟨0, by simp [hx]⟩
        · rcases List.mem_cons.mp hr with h | h
          · exact absurd h.symm hx
          · have hs2 : s ∉ xs := fun hc => hs (List.mem_cons_of_mem _ hc)
            rcases ih h hs2 (by simp at hlen ⊢; omega) with ⟨i, hi⟩
            exact ⟨i + 1, by simp [if_neg hx, hi]⟩
  rcases hidx with ⟨i, hi⟩
  have hlt := repoIdx_lt_length hi
  rw [repo_priority, repo_priority, hi, repoIdx_eq_none_of_not_mem hs]
  simp [Option.getD]
  omega

theorem argminStep_none {repos : List Str} (r : Str) :
    argminStep repos none r = some r := rfl

theorem argminStep_some {repos : List Str} (b r : Str) :
    argminStep repos (some b) r =
      if repo_priority repos r < repo_priority repos b then some r else some b := rfl

theorem argmin_keep {repos : List Str} {rstar : Str} (l : List Str)
    (hl : ∀ r ∈ l, r = rstar ∨ repo_priority repos rstar < repo_priority repos r) :
    l.foldl (argminStep repos) (some rstar) = some rstar := by
  induction l with
  | nil => rfl
  | cons x xs ih =>
      have hstep : argminStep repos (some rstar) x = some rstar := by
        rcases hl x (by simp) with h | h
        · subst h; simp [argminStep_some]
        · have h' : ¬ repo_priority repos x < repo_priority repos rstar := by omega
          simp [argminStep_some, if_neg h']
      rw [List.foldl_cons, hstep]
      exact ih (fun r hr => hl r (by simp [hr]))

theorem argmin_reach {repos : List Str} {rstar : Str} (l : List Str) (acc : Option Str)
    (hmem : rstar ∈ l)
    (hl : ∀ r ∈ l, r = rstar ∨ repo_priority repos rstar < repo_priority repos r)
    (hacc : acc = none ∨ ∃ a, acc = some a ∧ repo_priority repos rstar < repo_priority repos a) :
    l.foldl (argminStep repos) acc = some rstar := by
  induction l generalizing acc with
  | nil => simp at hmem
  | cons x xs ih =>
      by_cases hx : x = rstar
      · subst hx
        have hstep : argminStep repos acc x = some x := by
          rcases hacc with h | ⟨a, ha, hlt⟩
          · simp [h, argminStep_none]
          · simp [ha, argminStep_some, if_pos hlt]
        rw [List.foldl_cons, hstep]
        exact argmin_keep xs (fun r hr => hl r (by simp [hr]))
      · have hxin : rstar ∈ xs := by
          rcases List.mem_cons.mp hmem with h | h
          · exact absurd h.symm hx
          · exact h
        have hxgt : repo_priority repos rstar < repo_priority repos x := by
          rcases hl x (by simp) with h | h
          · exact absurd h hx
          · exact h
        have hstep :
            ∃ b, argminStep repos acc x = some b ∧
              repo_priority repos rstar < repo_priority repos b := by
          rcases hacc with h | ⟨a, ha, hlt⟩
          · exact ⟨x, by simp [h, argminStep_none], hxgt⟩
          · rw [ha, argminStep_some]
            by_cases hc : repo_priority repos x < repo_priority repos a
            · exact ⟨x, by simp [if_pos hc], hxgt⟩
            · exact ⟨a, by simp [if_neg hc], hlt⟩
        rcases hstep with ⟨b, hb, hbgt⟩
        rw [List.foldl_cons, hb]
        exact ih (some b) hxin (fun r hr => hl r (by simp [hr])) (Or.inr ⟨b, rfl, hbgt⟩)

theorem resolveRepo_unique {repos : List Str} {db : Db} {n rstar : Str}
    (hmem : rstar ∈ (rowsFor db n).map (fun r => r.repo))
    (hmin : ∀ r ∈ (rowsFor db n).map (fun r => r.repo),
      r ≠ rstar → repo_priority repos rstar < repo_priority repos r) :
    resolveRepo repos db n = some rstar := by
  rw [resolveRepo, argminPrio]
  exact argmin_reach _ none hmem
    (fun r hr => by
      by_cases h : r = rstar
      · exact Or.inl h
      · exact Or.inr (hmin r hr h))
    (Or.inl rfl)

theorem repoIdx_map_range (f : Nat → Str) (k i : Nat) (hik : i < k)
    (hne : ∀ j, j < i → f j ≠ f i) :
    repoIdx ((List.range k).map f) (f i) = some i := by
  induction i generalizing f k with
  | zero =>
      cases k with
      | zero => omega
      | succ m =>
          rw [List.range_succ_eq_map, List.map_cons]
          rw [repoIdx, if_pos rfl]
  | succ i2 ih =>
      cases k with
      | zero => omega
      | succ m =>
          rw [List.range_succ_eq_map, List.map_cons, List.map_map]
          rw [repoIdx, if_neg (hne 0 (by omega))]
          have := ih (fun j => f (j + 1)) m (by omega)
            (fun j hj => hne (j + 1) (by omega))
          have heq : (f ∘ fun x => x + 1) = fun j => f (j + 1) := rfl
          rw [heq, this]
          rfl

theorem repoName_len (i : Nat) : (repoName i).length = i + 1 := by
  rw [repoName, List.length_cons, List.length_replicate]

theorem z_not_mem_cfgBig : str "Z" ∉ cfgBig := by
  rw [cfgBig]
  intro hmem
  rcases List.mem_map.mp hmem with ⟨i, _, hi⟩
  rw [repoName] at hi
  exact absurd (List.cons.inj hi).1 (by decide)

theorem prio_rLast : repo_priority cfgBig rLast = 1001 := by
  have h := repoIdx_map_range repoName 1002 1001 (by omega)
    (fun j hj heq => by
      have hlen := congrArg List.length heq
      rw [repoName_len, repoName_len] at hlen
      omega)
  rw [repo_priority, cfgBig, rLast, h]
  rfl

theorem prio_z : repo_priority cfgBig (str "Z") = 1000 := by
  rw [repo_priority, repoIdx_eq_none_of_not_mem z_not_mem_cfgBig]
  rfl

theorem rLast_mem_cfgBig : rLast ∈ cfgBig := by
  rw [cfgBig, rLast]
  exact List.mem_map_of_mem repoName (by rw [List.mem_range]; omega)

theorem argmin_pair (repos : List Str) (a b : Str)
    (h : repo_priority repos b < repo_priority repos a) :
    argminPrio repos [a, b] = some b := by
  rw [argminPrio, List.foldl_cons, List.foldl_cons, List.foldl_nil,
    argminStep_none, argminStep_some, if_pos h]

theorem resolve_dbPrio_shape :
    resolveRepo cfgBig dbPrio (str "p") = argminPrio cfgBig [rLast, str "Z"] := by
  have hrows : (rowsFor dbPrio (str "p")).map (fun r => r.repo) = [rLast, str "Z"] := rfl
  rw [resolveRepo, hrows]

/-- C5 (counterexample): with 1002 configured repositories, the package `p`
stored in the *listed* repository at position 1001 and in the *unlisted*
repository `Z` resolves to the unlisted `Z`, because the generated `CASE`
expression gives every unlisted repository the fixed priority 1000 while
the listed one at position 1001 gets 1001 — contradicting "always chooses
the repository earliest in the configured repository order, with every
unlisted repository sorting after every listed one". -/
theorem C5_resolution_counterexample :
    resolveRepo cfgBig dbPrio (str "p") = some (str "Z") ∧
    str "Z" ∉ cfgBig ∧ rLast ∈ cfgBig := by
  refine ⟨?_, z_not_mem_cfgBig, rLast_mem_cfgBig⟩
  rw [resolve_dbPrio_shape]
  exact argmin_pair _ _ _ (by rw [prio_rLast, prio_z]; omega)

/-- C5 (amended): name resolution picks a repository of minimal priority
(configuration position for listed repositories, 1000 for unlisted ones);
whenever one repository of the name attains the minimum strictly —
e.g. a name in `A` at position 0 and `B` at position 1 — the resolution
deterministically returns it; and unlisted repositories sort after listed
ones provided at most 1000 repositories are configured. -/
theorem C5_resolution_amended (repos : List Str) (db : Db) (n rstar : Str)
    (hmem : rstar ∈ (rowsFor db n).map (fun r => r.repo))
    (hmin : ∀ r ∈ (rowsFor db n).map (fun r => r.repo),
      r ≠ rstar → repo_priority repos rstar < repo_priority repos r) :
    resolveRepo repos db n = some rstar ∧
    (∀ r ∈ repos, ∀ s, s ∉ repos → repos.length ≤ 1000 →
      repo_priority repos r < repo_priority repos s) :=
  ⟨resolveRepo_unique hmem hmin,
   fun r hr s hs hlen => prio_listed_lt_unlisted hr hs hlen⟩

/-- C5 (witness): `p` lives in `A` (position 0) and `B` (position 1) and
resolves to `A`. -/
theorem C5_resolution_amended_witness :
    resolveRepo cfgAB dbAB (str "p") = some (str "A") :=
  (C5_resolution_amended cfgAB dbAB (str "p") (str "A") (by decide) (by decide)).1

/-- C1: `info` returns the row of the priority-resolved repository, but
with the stored `repo` column in the `Pkg.desc` field and the stored
`desc` column in the `Pkg.repo` field (the `SELECT` lists
`name, version, repo, desc` while the mapper reads `desc` from column 2
and `repo` from column 3).  On a cache whose only row is
`(name firefox, version 1.0, desc "web browser", repo "extra")` the call
returns `repo = "web browser"` and `desc = "extra"` — the spec's field
assignment is the evident intent and the code a slip. -/
theorem C1_info_swaps_desc_and_repo :
    info cfgExtra dbSwap (str "firefox") =
      .ok { name := str "firefox", version := str "1.0",
            repo := str "web browser", desc := str "extra" } ∧
    (dbSwap.descs.map (fun r => (r.desc, r.repo))) =
      [(str "web browser", str "extra")] :=
  ⟨rfl, rfl⟩

/-- C6: a desc entry whose content lacks `%NAME%` makes the desc pass hit
`Option::unwrap` on `None`: the archive-level processing aborts through a
panic (`Outcome.fatal`) instead of rejecting the entry with a recoverable
error.  No row is inserted, but the no-panic requirement is violated. -/
theorem C6_missing_name_panics :
    update_cache_repo (str "core") [descNoName] ⟨[], []⟩ = Outcome.fatal ∧
    (parse_desc_fields descNoName.content).1 = none :=
  ⟨rfl, rfl⟩

/-- C7 (counterexample): with the cache store file absent, `require_cache`
does not surface any typed missing-cache condition — it triggers the
rebuild itself and reports the rebuild's own outcome (here success). -/
theorem C7_missing_cache_counterexample :
    require_cache false (Except.ok ()) = (true, Except.ok ()) := rfl

/-- C7 (amended): when the cache file exists the read-path gate passes
without rebuilding; when it is absent the gate *runs* `run_cache_update`
(which prompts the user and spawns `napm update`) and propagates that
outcome — a declined prompt yields `DeniedPE`, not a missing-cache error,
and no missing-cache variant exists in the error enumeration. -/
theorem C7_missing_cache_amended (r u : Except Error Unit) :
    require_cache true r = (false, Except.ok ()) ∧
    require_cache false r = (true, r) ∧
    run_cache_update false u = .error (Error.DeniedPE (str "napm update")) ∧
    run_cache_update true u = u :=
  ⟨rfl, rfl, rfl, rfl⟩

theorem runOps_committed (s : TxState) (ops : List TxOp) :
    (runOps s ops).committed = s.committed := by
  induction ops generalizing s with
  | nil => rfl
  | cons op ops ih =>
      show (runOps (txStep s op) ops).committed = s.committed
      rw [ih]
      rfl

theorem runOps_pending (s : TxState) (ops : List TxOp) :
    (runOps s ops).pending = ops.foldl applyOp s.pending := by
  induction ops generalizing s with
  | nil => rfl
  | cons op ops ih =>
      show (runOps (txStep s op) ops).pending = _
      rw [ih, List.foldl_cons]
      rfl

theorem packageFilesOf_del (db : Db) (rp n : Str) :
    packageFilesOf (applyOp db (.delFiles rp n)) rp n = [] := by
  simp only [applyOp, packageFilesOf, List.filter_filter]
  rw [List.map_eq_nil_iff, List.filter_eq_nil_iff]
  intro a _
  simp

theorem packageFilesOf_ins (db : Db) (rp n l : Str) :
    packageFilesOf (applyOp db (.insFile rp n l)) rp n =
      packageFilesOf db rp n ++ [l] := by
  simp [applyOp, packageFilesOf, List.filter_append]

theorem packageFilesOf_ins_fold (rp n : Str) (ls : List Str) (db : Db) :
    packageFilesOf ((ls.map (fun l => TxOp.insFile rp n l)).foldl applyOp db) rp n =
      packageFilesOf db rp n ++ ls := by
  induction ls generalizing db with
  | nil => simp
  | cons l ls ih =>
      rw [List.map_cons, List.foldl_cons, ih, packageFilesOf_ins, List.append_assoc]
      rfl

theorem descs_ins_fold (rp n : Str) (ls : List Str) (db : Db) :
    ((ls.map (fun l => TxOp.insFile rp n l)).foldl applyOp db).descs = db.descs := by
  induction ls generalizing db with
  | nil => rfl
  | cons l ls ih =>
      rw [List.map_cons, List.foldl_cons, ih]
      rfl

theorem doneFlags_aux (rp n : Str) (l : List PkgRow) :
    ((l.map (fun r =>
        if r.repo = rp ∧ r.name = n then
          (⟨r.name, r.version, r.desc, r.repo, true⟩ : PkgRow)
        else r)).filter (fun r => r.repo = rp ∧ r.name = n)).map
      (fun r => r.files_done) =
    ((l.filter (fun r => r.repo = rp ∧ r.name = n)).map
      (fun r => r.files_done)).map (fun _ => true) := by
  induction l with
  | nil => rfl
  | cons r rs ih =>
      rw [List.map_cons]
      by_cases h : r.repo = rp ∧ r.name = n
      · rw [if_pos h]
        rw [List.filter_cons_of_pos (by exact decide_eq_true h),
          List.filter_cons_of_pos (by exact decide_eq_true h)]
        rw [List.map_cons, List.map_cons, List.map_cons, ih]
      · rw [if_neg h]
        rw [List.filter_cons_of_neg (by simpa using h),
          List.filter_cons_of_neg (by simpa using h)]
        exact ih

theorem filesDoneFor_setDone (db : Db) (rp n : Str) :
    filesDoneFor (applyOp db (.setDone rp n)) rp n =
      (filesDoneFor db rp n).map (fun _ => true) := by
  simp only [applyOp, filesDoneFor]
  exact doneFlags_aux rp n db.descs

theorem filesDoneFor_congr {a b : Db} (rp n : Str) (h : a.descs = b.descs) :
    filesDoneFor a rp n = filesDoneFor b rp n := by
  rw [filesDoneFor, filesDoneFor, h]

theorem packageFilesOf_congr {a b : Db} (rp n : Str) (h : a.files = b.files) :
    packageFilesOf a rp n = packageFilesOf b rp n := by
  rw [packageFilesOf, packageFilesOf, h]

/-- C3: the per-package file-list replacement of the files pass is one
transaction.  Read through `crashTx` (an interruption after any prefix of
the statements, here after `k` of them), the package's file rows and its
`files_done` flags are exactly the pre-transaction ones — never a partial
set, never prematurely marked.  Read after `commitTx` of the whole
statement list, the rows are exactly the new content (header line dropped)
and every descriptor row of the package is marked `files_done`. -/
theorem C3_replace_files_atomic (db : Db) (repo name : Str)
    (content : List Str) (k : Nat) :
    packageFilesOf
        (crashTx (runOps (beginTx db) ((replace_files_ops repo name content).take k)))
        repo name
      = packageFilesOf db repo name ∧
    filesDoneFor
        (crashTx (runOps (beginTx db) ((replace_files_ops repo name content).take k)))
        repo name
      = filesDoneFor db repo name ∧
    packageFilesOf (commitTx (runOps (beginTx db) (replace_files_ops repo name content)))
        repo name
      = content.drop 1 ∧
    filesDoneFor (commitTx (runOps (beginTx db) (replace_files_ops repo name content)))
        repo name
      = (filesDoneFor db repo name).map (fun _ => true) := by
  have hcrash : crashTx (runOps (beginTx db) ((replace_files_ops repo name content).take k)) = db := by
    rw [crashTx, runOps_committed]
    rfl
  have hpend : commitTx (runOps (beginTx db) (replace_files_ops repo name content)) =
      applyOp
        (((content.drop 1).map (fun l => TxOp.insFile repo name l)).foldl applyOp
          (applyOp db (.delFiles repo name)))
        (.setDone repo name) := by
    rw [commitTx, runOps_pending, replace_files_ops]
    rw [List.foldl_append, List.foldl_cons]
    rfl
  refine ⟨by rw [hcrash], by rw [hcrash], ?_, ?_⟩
  · rw [hpend]
    have hfiles : (applyOp
        (((content.drop 1).map (fun l => TxOp.insFile repo name l)).foldl applyOp
          (applyOp db (.delFiles repo name)))
        (.setDone repo name)).files =
        (((content.drop 1).map (fun l => TxOp.insFile repo name l)).foldl applyOp
          (applyOp db (.delFiles repo name))).files := rfl
    rw [packageFilesOf_congr repo name hfiles, packageFilesOf_ins_fold,
      packageFilesOf_del]
    rfl
  · rw [hpend, filesDoneFor_setDone]
    have hdescs : (((content.drop 1).map (fun l => TxOp.insFile repo name l)).foldl applyOp
        (applyOp db (.delFiles repo name))).descs = db.descs := by
      rw [descs_ins_fold]
      rfl
    rw [filesDoneFor_congr repo name hdescs]

theorem likeMatch_nil (s : Str) : likeMatch [] s = s.isEmpty := by
  rw [likeMatch.eq_def]

theorem likeMatch_cons (p : Char) (ps s : Str) :
    likeMatch (p :: ps) s =
      if p = '%' then (s.tails).any (fun t => likeMatch ps t)
      else
        match s with
        | [] => false
        | c :: s' =>
            if p = '_' then likeMatch ps s'
            else lowerC p = lowerC c && likeMatch ps s' := by
  rw [likeMatch.eq_def]

theorem likeMatch_slash_iff (t : Str) :
    likeMatch ['/'] t = true ↔ t = ['/'] := by
  cases t with
  | nil => simp [likeMatch_cons]
  | cons c t2 =>
      rw [likeMatch_cons]
      rw [if_neg (by decide)]
      cases t2 with
      | nil =>
          simp only [if_neg (by decide : ¬ ('/' : Char) = '_')]
          constructor
          · intro h
            have h2 := (Bool.and_eq_true _ _).mp h
            have h3 : lowerC '/' = lowerC c := by
              simpa using h2.1
            have h4 : lowerC c = '/' := by
              rw [← h3]
              rfl
            rw [(lowerC_eq_slash c).mp h4]
          · intro h
            cases List.cons.inj h
            subst c
            rfl
      | cons d t3 =>
          simp only [if_neg (by decide : ¬ ('/' : Char) = '_')]
          constructor
          · intro h
            have h2 := (Bool.and_eq_true _ _).mp h
            exfalso
            simpa [likeMatch_nil] using h2.2
          · intro h
            exact absurd h (by simp)

theorem likeMatch_pct_slash (s : Str) :
    likeMatch (str "%/") s = true ↔ ∃ q, s = q ++ ['/'] := by
  have hshape : str "%/" = '%' :: ['/'] := rfl
  rw [hshape, likeMatch_cons, if_pos rfl, List.any_eq_true]
  constructor
  · rintro ⟨t, hmem, hmatch⟩
    have ht : t = ['/'] := (likeMatch_slash_iff t).mp hmatch
    subst ht
    rcases (List.mem_tails _ _).mp hmem with ⟨q, hq⟩
    exact ⟨q, hq.symm⟩
  · rintro ⟨q, hq⟩
    refine ⟨['/'], ?_, (likeMatch_slash_iff _).mpr rfl⟩
    rw [List.mem_tails]
    exact ⟨q, hq.symm⟩

/-- C10: for a package name present in the descriptor table, `files`
returns `Ok` with exactly the stored paths of the priority-resolved
repository, each prefixed by one `/`; with `with_dirs = false` the
`path NOT LIKE '%/'` clause drops exactly the `/`-terminated (directory)
paths, with `with_dirs = true` they are included; for a name present in no
repository both calls return the typed `PackageNotFound` error. -/
theorem C10_files_contract (repos : List Str) (db : Db) (n rstar : Str)
    (with_dirs : Bool)
    (hmem : rstar ∈ (rowsFor db n).map (fun r => r.repo))
    (hmin : ∀ r ∈ (rowsFor db n).map (fun r => r.repo),
      r ≠ rstar → repo_priority repos rstar < repo_priority repos r) :
    (∃ out, files repos db n with_dirs = .ok out ∧
      (∀ p, p ∈ out ↔ ∃ f, f ∈ db.files ∧ f.repo = rstar ∧ f.name = n ∧
        p = '/' :: f.path ∧ (with_dirs = true ∨ ¬ ∃ q, f.path = q ++ ['/']))) ∧
    (∀ m, (∀ r ∈ db.descs, r.name ≠ m) →
      files repos db m with_dirs = .error (Error.PackageNotFound m)) := by
  have hresolve : resolveRepo repos db n = some rstar := resolveRepo_unique hmem hmin
  have hex : pkg_exists db n = true := by
    rcases List.mem_map.mp hmem with ⟨r, hr, _⟩
    rw [rowsFor] at hr
    rcases List.mem_filter.mp hr with ⟨hrow, hname⟩
    rw [pkg_exists, List.any_eq_true]
    exact ⟨r, hrow, hname⟩
  have hok : files repos db n with_dirs =
      .ok ((db.files.filter
        (fun f => f.name = n ∧ some f.repo = resolveRepo repos db n ∧
          (with_dirs || !(likeMatch (str "%/") f.path)))).map
            (fun f => '/' :: f.path)) := by
    rw [files, if_pos hex]
  constructor
  · refine ⟨_, hok, ?_⟩
    intro p
    rw [List.mem_map]
    constructor
    · rintro ⟨f, hfmem, hp⟩
      rw [List.mem_filter, decide_eq_true_eq] at hfmem
      obtain ⟨hf, hname, hrepo, hdir⟩ := hfmem
      rw [hresolve] at hrepo
      refine ⟨f, hf, Option.some.inj hrepo, hname, hp.symm, ?_⟩
      cases hw : with_dirs
      · right
        rintro ⟨q, hq⟩
        rw [hw] at hdir
        simp only [Bool.false_or, Bool.not_eq_true'] at hdir
        have hlike := (likeMatch_pct_slash f.path).mpr ⟨q, hq⟩
        rw [hlike] at hdir
        cases hdir
      · left
        rfl
    · rintro ⟨f, hf, hrepo, hname, hp, hdir⟩
      refine ⟨f, List.mem_filter.mpr ⟨hf, ?_⟩, hp.symm⟩
      rw [decide_eq_true_eq]
      refine ⟨hname, by rw [hresolve, hrepo], ?_⟩
      rcases hdir with h | h
      · rw [h]
        rfl
      · have hlike : likeMatch (str "%/") f.path = false := by
          cases hb : likeMatch (str "%/") f.path
          · rfl
          · exact absurd ((likeMatch_pct_slash _).mp hb) h
        rw [hlike]
        cases with_dirs <;> rfl
  · intro m hnone
    have hnex : pkg_exists db m = false := by
      rw [pkg_exists, List.any_eq_false]
      intro r hr
      simpa using hnone r hr
    rw [files, if_neg (by rw [hnex]; exact Bool.false_ne_true)]

/-- C10 (witness): in a one-package cache owning `usr/bin/` (a directory)
and `usr/bin/gcc`, `files` without directories lists exactly
`/usr/bin/gcc`, and an absent name yields `PackageNotFound`. -/
theorem C10_files_contract_witness :
    files cfgCore dbGcc (str "gcc") false = .ok [str "/usr/bin/gcc"] ∧
    files cfgCore dbGcc (str "nope") false =
      .error (Error.PackageNotFound (str "nope")) :=
  ⟨rfl,
   (C10_files_contract cfgCore dbGcc (str "gcc") (str "core") false
      (by decide) (by decide)).2 (str "nope") (by decide)⟩

theorem mem_insSorted {α : Type} (le : α → α → Bool) (x a : α) (l : List α) :
    a ∈ insSorted le x l ↔ a = x ∨ a ∈ l := by
  induction l with
  | nil => simp [insSorted]
  | cons y ys ih =>
      rw [insSorted]
      by_cases h : le x y = true
      · rw [if_pos h]
        simp
      · rw [if_neg h]
        rw [List.mem_cons, ih, List.mem_cons]
        tauto

theorem mem_sortByKey {α : Type} (le : α → α → Bool) (a : α) (l : List α) :
    a ∈ sortByKey le l ↔ a ∈ l := by
  induction l with
  | nil => simp [sortByKey]
  | cons y ys ih =>
      rw [sortByKey, mem_insSorted, ih, List.mem_cons]

theorem mem_join_aux (descs : List PkgRow) (fs : List FileRow)
    (d : PkgRow) (f : FileRow) :
    (d, f) ∈ fs.foldr
        (fun f acc =>
          ((descs.filter (fun d => d.name = f.name ∧ d.repo = f.repo)).map
            (fun d => (d, f))) ++ acc) [] ↔
      d ∈ descs ∧ f ∈ fs ∧ d.name = f.name ∧ d.repo = f.repo := by
  induction fs with
  | nil => simp
  | cons g gs ih =>
      rw [List.foldr_cons, List.mem_append, ih]
      constructor
      · rintro (hin | ⟨hd, hg, hn, hr⟩)
        · rcases List.mem_map.mp hin with ⟨d2, hd2, heq⟩
          obtain ⟨heqd, heqf⟩ := Prod.mk.inj heq
          subst heqd
          subst heqf
          rcases List.mem_filter.mp hd2 with ⟨hdd, hcond⟩
          rw [decide_eq_true_eq] at hcond
          exact ⟨hdd, by simp, hcond.1, hcond.2⟩
        · exact ⟨hd, by simp [hg], hn, hr⟩
      · rintro ⟨hd, hgf, hn, hr⟩
        rcases List.mem_cons.mp hgf with heq | hgs
        · subst heq
          left
          exact List.mem_map_of_mem _
            (List.mem_filter.mpr ⟨hd, by rw [decide_eq_true_eq]; exact ⟨hn, hr⟩⟩)
        · right
          exact ⟨hd, hgs, hn, hr⟩

theorem mem_joinFilesDescs (db : Db) (d : PkgRow) (f : FileRow) :
    (d, f) ∈ joinFilesDescs db ↔
      d ∈ db.descs ∧ f ∈ db.files ∧ d.name = f.name ∧ d.repo = f.repo := by
  rw [joinFilesDescs]
  exact mem_join_aux db.descs db.files d f

theorem find_by_path_mem (repos : List Str) (db : Db) (path : Str)
    (exact : Bool) (pkg : Pkg) (p : Str) :
    (pkg, p) ∈ find_packages_by_file repos db path exact ↔
      ∃ d f, d ∈ db.descs ∧ f ∈ db.files ∧ d.name = f.name ∧ d.repo = f.repo ∧
        some d.repo = resolveRepo repos db d.name ∧
        pkg = ⟨d.name, d.version, d.repo, d.desc⟩ ∧ p = '/' :: f.path ∧
        (if exact then '/' :: f.path = path
         else likeMatch ('%' :: path) ('/' :: f.path) = true) := by
  rw [find_packages_by_file]
  rw [List.mem_map]
  constructor
  · rintro ⟨⟨d, f⟩, hmem, heq⟩
    rw [mem_sortByKey, List.mem_filter] at hmem
    obtain ⟨hjoin, hcond⟩ := hmem
    rw [mem_joinFilesDescs] at hjoin
    obtain ⟨hd, hf, hn, hr⟩ := hjoin
    obtain ⟨hpkg, hp⟩ := Prod.mk.inj heq
    rw [Bool.and_eq_true, decide_eq_true_eq] at hcond
    refine ⟨d, f, hd, hf, hn, hr, hcond.2, hpkg.symm, hp.symm, ?_⟩
    cases exact
    · simpa using hcond.1
    · simpa using hcond.1
  · rintro ⟨d, f, hd, hf, hn, hr, hres, hpkg, hp, hcond⟩
    refine ⟨(d, f), ?_, by rw [hpkg, hp]⟩
    rw [mem_sortByKey, List.mem_filter, mem_joinFilesDescs]
    refine ⟨⟨hd, hf, hn, hr⟩, ?_⟩
    rw [Bool.and_eq_true, decide_eq_true_eq]
    refine ⟨?_, hres⟩
    cases exact
    · simpa using hcond
    · simpa using hcond

theorem likeMatch_cons_nil (p : Char) (ps : Str) (hp : p ≠ '%') :
    likeMatch (p :: ps) [] = false := by
  rw [likeMatch_cons, if_neg hp]

theorem likeMatch_cons_cons (p : Char) (ps : Str) (c : Char) (s2 : Str)
    (hp : p ≠ '%') :
    likeMatch (p :: ps) (c :: s2) =
      if p = '_' then likeMatch ps s2
      else (decide (lowerC p = lowerC c) && likeMatch ps s2) := by
  rw [likeMatch_cons, if_neg hp]

theorem likeMatch_lit_iff (lit : Str) (hw : ∀ c ∈ lit, c ≠ '%' ∧ c ≠ '_') :
    ∀ s : Str, likeMatch lit s = true ↔ lowerS s = lowerS lit := by
  induction lit with
  | nil =>
      intro s
      rw [likeMatch_nil, List.isEmpty_iff]
      constructor
      · intro h
        rw [h]
      · intro h
        have := congrArg List.length h
        simp only [lowerS, List.length_map] at this
        exact List.eq_nil_of_length_eq_zero (by simpa using this)
  | cons p ps ih =>
      intro s
      have hp := hw p (by simp)
      have hps : ∀ c ∈ ps, c ≠ '%' ∧ c ≠ '_' := fun c hc => hw c (by simp [hc])
      cases s with
      | nil =>
          rw [likeMatch_cons_nil _ _ hp.1]
          simp [lowerS]
      | cons c s2 =>
          rw [likeMatch_cons_cons _ _ _ _ hp.1, if_neg hp.2]
          rw [Bool.and_eq_true, decide_eq_true_eq]
          rw [ih hps s2]
          simp only [lowerS, List.map_cons]
          rw [List.cons.injEq]
          tauto

theorem likeMatch_pct_iff (lit : Str) (hw : ∀ c ∈ lit, c ≠ '%' ∧ c ≠ '_') (s : Str) :
    likeMatch ('%' :: lit) s = true ↔ ∃ t, lowerS s = t ++ lowerS lit := by
  rw [likeMatch_cons, if_pos rfl, List.any_eq_true]
  constructor
  · rintro ⟨t, hmem, hmatch⟩
    rcases (List.mem_tails _ _).mp hmem with ⟨q, hq⟩
    have ht := (likeMatch_lit_iff lit hw t).mp hmatch
    refine ⟨lowerS q, ?_⟩
    rw [← hq, lowerS, List.map_append, ← ht]
    rfl
  · rintro ⟨t, hts⟩
    have hlen : t.length + lit.length = s.length := by
      have := congrArg List.length hts
      simp only [lowerS, List.length_map, List.length_append] at this
      omega
    refine ⟨s.drop t.length, ?_, ?_⟩
    · rw [List.mem_tails]
      exact ⟨s.take t.length, List.take_append_drop _ _⟩
    · rw [likeMatch_lit_iff lit hw]
      have : lowerS (s.drop t.length) = (lowerS s).drop t.length := by
        rw [lowerS, lowerS, List.map_drop]
      rw [this, hts]
      have : lowerS lit = (t ++ lowerS lit).drop t.length := by
        rw [List.drop_left]
      rw [← this]

theorem strStarts_slash_of_bin (f : Str) (h : strStarts (str "/bin/") f = true) :
    strStarts (str "/") f = true := by
  cases f with
  | nil => exact absurd h (by decide)
  | cons c rest =>
      have hc := (Bool.and_eq_true _ _).mp h
      show (decide ('/' = c) && strStarts [] rest) = true
      exact (Bool.and_eq_true _ _).mpr ⟨hc.1, rfl⟩

/-- C8 (counterexample): the fragment `//usr/bin/gcc` already starts with
`/`, so `find` leaves it untouched — it is *not* normalised to exactly one
leading separator — and the exact lookup then matches nothing, although
the cache stores exactly `usr/bin/gcc`; the claim's normalised fragment
`/usr/bin/gcc` does match that row. -/
theorem C8_find_by_path_counterexample :
    find_normalize (str "//usr/bin/gcc") true = str "//usr/bin/gcc" ∧
    find_packages_by_file cfgCore dbGcc
      (find_normalize (str "//usr/bin/gcc") true) true = [] ∧
    find_packages_by_file cfgCore dbGcc (str "/usr/bin/gcc") true =
      [(pkgGcc, str "/usr/bin/gcc")] :=
  ⟨rfl, rfl, rfl⟩

/-- C8 (amended): the `find` normalisation prepends a single `/` only when
the fragment has none (already-`/`-prefixed fragments are kept as-is, so
repeated separators are not collapsed), and with `exact = true` a fragment
beginning with `/bin/` additionally gets `/usr` prepended (likewise
`/lib/`, `/lib64/`, `/sbin/`).  `find_packages_by_file` with `exact = true`
returns exactly the (priority-resolved descriptor, `/`-prefixed path)
pairs whose `/`-prefixed stored path *equals* the fragment; with
`exact = false` exactly those whose `/`-prefixed stored path matches the
SQLite pattern `%fragment` — for a wildcard-free fragment, those ending
with the fragment up to ASCII case. -/
theorem C8_find_by_path_amended (repos : List Str) (db : Db) (frag p : Str)
    (pkg : Pkg) :
    (strStarts (str "/") frag = true → find_normalize frag false = frag) ∧
    (strStarts (str "/") frag = false → find_normalize frag false = '/' :: frag) ∧
    (strStarts (str "/bin/") frag = true →
      find_normalize frag true = str "/usr" ++ frag) ∧
    ((pkg, p) ∈ find_packages_by_file repos db frag true ↔
      ∃ d f, d ∈ db.descs ∧ f ∈ db.files ∧ d.name = f.name ∧ d.repo = f.repo ∧
        some d.repo = resolveRepo repos db d.name ∧
        pkg = ⟨d.name, d.version, d.repo, d.desc⟩ ∧ p = '/' :: f.path ∧
        '/' :: f.path = frag) ∧
    ((∀ c ∈ frag, c ≠ '%' ∧ c ≠ '_') →
      ((pkg, p) ∈ find_packages_by_file repos db frag false ↔
        ∃ d f, d ∈ db.descs ∧ f ∈ db.files ∧ d.name = f.name ∧ d.repo = f.repo ∧
          some d.repo = resolveRepo repos db d.name ∧
          pkg = ⟨d.name, d.version, d.repo, d.desc⟩ ∧ p = '/' :: f.path ∧
          (∃ t, lowerS ('/' :: f.path) = t ++ lowerS frag))) := by
  have hfalse : ¬ ((false : Bool) = true) := Bool.false_ne_true
  have htrue : ((true : Bool) = true) := rfl
  refine ⟨?_, ?_, ?_, ?_, ?_⟩
  · intro h
    rw [find_normalize, if_pos h, if_neg hfalse]
  · intro h
    rw [find_normalize,
      if_neg (show ¬ (strStarts (str "/") frag = true) by rw [h]; exact hfalse),
      if_neg hfalse]
  · intro h
    have hslash := strStarts_slash_of_bin frag h
    rw [find_normalize, if_pos hslash, if_pos htrue, if_pos h]
  · rw [find_by_path_mem]
    constructor
    · rintro ⟨d, f, hd, hf, hn, hr, hres, hpkg, hp, hcond⟩
      exact ⟨d, f, hd, hf, hn, hr, hres, hpkg, hp, by simpa using hcond⟩
    · rintro ⟨d, f, hd, hf, hn, hr, hres, hpkg, hp, hcond⟩
      exact ⟨d, f, hd, hf, hn, hr, hres, hpkg, hp, by simpa using hcond⟩
  · intro hw
    rw [find_by_path_mem]
    constructor
    · rintro ⟨d, f, hd, hf, hn, hr, hres, hpkg, hp, hcond⟩
      refine ⟨d, f, hd, hf, hn, hr, hres, hpkg, hp, ?_⟩
      have hc2 : likeMatch ('%' :: frag) ('/' :: f.path) = true := by simpa using hcond
      exact (likeMatch_pct_iff frag hw _).mp hc2
    · rintro ⟨d, f, hd, hf, hn, hr, hres, hpkg, hp, hcond⟩
      refine ⟨d, f, hd, hf, hn, hr, hres, hpkg, hp, ?_⟩
      have := (likeMatch_pct_iff frag hw ('/' :: f.path)).mpr hcond
      simpa using this

/-- C8 (witness): exact lookup for `/usr/bin/gcc` returns the `gcc` pair,
and non-exact lookup for `bin/gcc` matches the stored `usr/bin/gcc` by
suffix. -/
theorem C8_find_by_path_amended_witness :
    ((pkgGcc, str "/usr/bin/gcc") ∈
      find_packages_by_file cfgCore dbGcc (str "/usr/bin/gcc") true) ∧
    ((pkgGcc, str "/usr/bin/gcc") ∈
      find_packages_by_file cfgCore dbGcc (str "bin/gcc") false) ∧
    find_normalize (str "bin/gcc") false = str "/bin/gcc" :=
  ⟨(C8_find_by_path_amended cfgCore dbGcc (str "/usr/bin/gcc")
      (str "/usr/bin/gcc") pkgGcc).2.2.2.1.mpr
    ⟨⟨str "gcc", str "13", str "compiler", str "core", true⟩,
     ⟨str "core", str "gcc", str "usr/bin/gcc"⟩,
     by decide, by decide, rfl, rfl, rfl, rfl, rfl, rfl⟩,
   ((C8_find_by_path_amended cfgCore dbGcc (str "bin/gcc")
      (str "/usr/bin/gcc") pkgGcc).2.2.2.2 (by decide)).mpr
    ⟨⟨str "gcc", str "13", str "compiler", str "core", true⟩,
     ⟨str "core", str "gcc", str "usr/bin/gcc"⟩,
     by decide, by decide, rfl, rfl, rfl, rfl, rfl,
     ⟨str "/usr/", by decide⟩⟩,
   (C8_find_by_path_amended cfgCore dbGcc (str "bin/gcc")
      (str "bin/gcc") pkgGcc).2.1 (by decide)⟩

theorem levDist_nil (ys : Str) : levDist [] ys = ys.length := by
  rw [levDist]

theorem levDist_nil_right (xs : Str) : levDist xs [] = xs.length := by
  cases xs with
  | nil => rw [levDist]
  | cons x xs2 => rw [levDist]

theorem min_transpose (a1 a2 a3 b1 b2 b3 c1 c2 c3 : Nat) :
    1 + min (1 + min a1 (min a2 a3)) (min (1 + min b1 (min b2 b3)) (1 + min c1 (min c2 c3)))
    = 1 + min (1 + min a1 (min b1 c1)) (min (1 + min a2 (min b2 c2)) (1 + min a3 (min b3 c3))) := by
  have h1 : ∀ p q r : Nat, min (1 + p) (min (1 + q) (1 + r)) = 1 + min p (min q r) := by
    intro p q r
    omega
  rw [h1, h1]
  have h2 : min (min a1 (min a2 a3)) (min (min b1 (min b2 b3)) (min c1 (min c2 c3)))
      = min (min a1 (min b1 c1)) (min (min a2 (min b2 c2)) (min a3 (min b3 c3))) := by
    ac_rfl
  rw [h2]

theorem levDist_cons_cons (x : Char) (xs : Str) (y : Char) (ys : Str) :
    levDist (x :: xs) (y :: ys) =
      if x = y then levDist xs ys
      else 1 + min (levDist xs (y :: ys)) (min (levDist (x :: xs) ys) (levDist xs ys)) := by
  rw [levDist]

theorem levDist_step_bounds :
    ∀ (n : Nat) (xs ys : Str), xs.length + ys.length ≤ n →
      (∀ y, levDist xs ys ≤ levDist xs (y :: ys) + 1) ∧
      (∀ y, levDist xs (y :: ys) ≤ levDist xs ys + 1) ∧
      (∀ x, levDist xs ys ≤ levDist (x :: xs) ys + 1) ∧
      (∀ x, levDist (x :: xs) ys ≤ levDist xs ys + 1) := by
  intro n
  induction n with
  | zero =>
      intro xs ys h
      have hx : xs = [] := List.eq_nil_of_length_eq_zero (by omega)
      have hy : ys = [] := List.eq_nil_of_length_eq_zero (by omega)
      subst hx
      subst hy
      refine ⟨fun y => ?_, fun y => ?_, fun x => ?_, fun x => ?_⟩ <;>
        simp [levDist_nil, levDist_nil_right]
  | succ m ih =>
      intro xs ys h
      refine ⟨fun y => ?_, fun y => ?_, fun x => ?_, fun x => ?_⟩
      · cases xs with
        | nil =>
            rw [levDist_nil, levDist_nil]
            simp only [List.length_cons]
            omega
        | cons x xs2 =>
            have hm : xs2.length + ys.length ≤ m := by
              simp only [List.length_cons] at h
              omega
            rw [levDist_cons_cons x xs2 y ys]
            by_cases hxy : x = y
            · rw [if_pos hxy]
              exact (ih xs2 ys hm).2.2.2 x
            · rw [if_neg hxy]
              have h4 := (ih xs2 ys hm).2.2.2 x
              have h1 := (ih xs2 ys hm).1 y
              omega
      · cases xs with
        | nil =>
            rw [levDist_nil, levDist_nil]
            simp only [List.length_cons]
            omega
        | cons x xs2 =>
            have hm : xs2.length + ys.length ≤ m := by
              simp only [List.length_cons] at h
              omega
            rw [levDist_cons_cons x xs2 y ys]
            by_cases hxy : x = y
            · rw [if_pos hxy]
              exact (ih xs2 ys hm).2.2.1 x
            · rw [if_neg hxy]
              omega
      · cases ys with
        | nil =>
            rw [levDist_nil_right, levDist_nil_right]
            simp only [List.length_cons]
            omega
        | cons y ys2 =>
            have hm : xs.length + ys2.length ≤ m := by
              simp only [List.length_cons] at h
              omega
            rw [levDist_cons_cons x xs y ys2]
            by_cases hxy : x = y
            · rw [if_pos hxy]
              exact (ih xs ys2 hm).2.1 y
            · rw [if_neg hxy]
              have h2 := (ih xs ys2 hm).2.1 y
              have h3 := (ih xs ys2 hm).2.2.1 x
              omega
      · cases ys with
        | nil =>
            rw [levDist_nil_right, levDist_nil_right]
            simp only [List.length_cons]
            omega
        | cons y ys2 =>
            have hm : xs.length + ys2.length ≤ m := by
              simp only [List.length_cons] at h
              omega
            rw [levDist_cons_cons x xs y ys2]
            by_cases hxy : x = y
            · rw [if_pos hxy]
              exact (ih xs ys2 hm).1 y
            · rw [if_neg hxy]
              omega

theorem levDist_le_cons_snd (xs ys : Str) (y : Char) :
    levDist xs ys ≤ levDist xs (y :: ys) + 1 :=
  (levDist_step_bounds (xs.length + ys.length) xs ys (le_refl _)).1 y

theorem levDist_le_cons_fst (xs ys : Str) (x : Char) :
    levDist xs ys ≤ levDist (x :: xs) ys + 1 :=
  (levDist_step_bounds (xs.length + ys.length) xs ys (le_refl _)).2.2.1 x

set_option maxHeartbeats 1600000 in
theorem levDist_snoc (x y : Char) :
    ∀ (n : Nat) (xs ys : Str), xs.length + ys.length ≤ n →
      levDist (xs ++ [x]) (ys ++ [y]) =
        if x = y then levDist xs ys
        else 1 + min (levDist xs (ys ++ [y]))
              (min (levDist (xs ++ [x]) ys) (levDist xs ys)) := by
  intro n
  induction n with
  | zero =>
      intro xs ys h
      have hx : xs = [] := List.eq_nil_of_length_eq_zero (by omega)
      have hy : ys = [] := List.eq_nil_of_length_eq_zero (by omega)
      subst hx
      subst hy
      simp only [List.nil_append]
      exact levDist_cons_cons x [] y []
  | succ m ih =>
      intro xs ys h
      cases xs with
      | nil =>
          cases ys with
          | nil =>
              simp only [List.nil_append]
              exact levDist_cons_cons x [] y []
          | cons v vs =>
              have hm : ([] : Str).length + vs.length ≤ m := by
                simp only [List.length_cons, List.length_nil] at h ⊢
                omega
              have hIH := ih [] vs hm
              simp only [List.nil_append] at hIH ⊢
              simp only [List.cons_append]
              rw [levDist_cons_cons x [] v (vs ++ [y])]
              rw [levDist_cons_cons x [] v vs]
              rw [hIH]
              simp only [levDist_nil, List.length_append, List.length_cons,
                List.length_nil]
              by_cases hxv : x = v
              · by_cases hxy : x = y
                · simp only [if_pos hxv, if_pos hxy]
                  try omega
                · simp only [if_pos hxv, if_neg hxy]
                  try omega
              · by_cases hxy : x = y
                · simp only [if_neg hxv, if_pos hxy]
                  try omega
                · simp only [if_neg hxv, if_neg hxy]
                  try omega
      | cons u us =>
          cases ys with
          | nil =>
              have hm : us.length + ([] : Str).length ≤ m := by
                simp only [List.length_cons, List.length_nil] at h ⊢
                omega
              have hIH := ih us [] hm
              simp only [List.nil_append] at hIH ⊢
              simp only [List.cons_append]
              rw [levDist_cons_cons u (us ++ [x]) y []]
              rw [levDist_cons_cons u us y []]
              rw [hIH]
              simp only [levDist_nil, levDist_nil_right, List.length_append,
                List.length_cons, List.length_nil]
              by_cases huy : u = y
              · by_cases hxy : x = y
                · simp only [if_pos huy, if_pos hxy]
                  try omega
                · simp only [if_pos huy, if_neg hxy]
                  try omega
              · by_cases hxy : x = y
                · simp only [if_neg huy, if_pos hxy]
                  try omega
                · simp only [if_neg huy, if_neg hxy]
                  try omega
          | cons v vs =>
              have hm1 : us.length + vs.length ≤ m := by
                simp only [List.length_cons] at h
                omega
              have hm2 : us.length + (v :: vs).length ≤ m := by
                simp only [List.length_cons] at h ⊢
                omega
              have hm3 : (u :: us).length + vs.length ≤ m := by
                simp only [List.length_cons] at h ⊢
                omega
              have hIH1 := ih us vs hm1
              have hIH2 := ih us (v :: vs) hm2
              have hIH3 := ih (u :: us) vs hm3
              simp only [List.cons_append] at hIH2 hIH3 ⊢
              rw [levDist_cons_cons u (us ++ [x]) v (vs ++ [y])]
              by_cases huv : u = v
              · rw [if_pos huv, hIH1]
                by_cases hxy : x = y
                · rw [if_pos hxy, if_pos hxy]
                  rw [levDist_cons_cons u us v vs, if_pos huv]
                · rw [if_neg hxy, if_neg hxy]
                  rw [levDist_cons_cons u us v (vs ++ [y]), if_pos huv]
                  rw [levDist_cons_cons u (us ++ [x]) v vs, if_pos huv]
                  rw [levDist_cons_cons u us v vs, if_pos huv]
              · rw [if_neg huv, hIH2, hIH3, hIH1]
                by_cases hxy : x = y
                · rw [if_pos hxy, if_pos hxy, if_pos hxy, if_pos hxy]
                  rw [levDist_cons_cons u us v vs, if_neg huv]
                · rw [if_neg hxy, if_neg hxy, if_neg hxy, if_neg hxy]
                  rw [levDist_cons_cons u us v (vs ++ [y]), if_neg huv]
                  rw [levDist_cons_cons u (us ++ [x]) v vs, if_neg huv]
                  rw [levDist_cons_cons u us v vs, if_neg huv]
                  exact min_transpose _ _ _ _ _ _ _ _ _

theorem levDist_reverse :
    ∀ (n : Nat) (xs ys : Str), xs.length + ys.length ≤ n →
      levDist xs.reverse ys.reverse = levDist xs ys := by
  intro n
  induction n with
  | zero =>
      intro xs ys h
      have hx : xs = [] := List.eq_nil_of_length_eq_zero (by omega)
      have hy : ys = [] := List.eq_nil_of_length_eq_zero (by omega)
      subst hx
      subst hy
      rfl
  | succ m ih =>
      intro xs ys h
      cases xs with
      | nil =>
          rw [List.reverse_nil, levDist_nil, levDist_nil, List.length_reverse]
      | cons x xs2 =>
          cases ys with
          | nil =>
              rw [List.reverse_nil, levDist_nil_right, levDist_nil_right,
                List.length_reverse]
          | cons y ys2 =>
              rw [List.reverse_cons, List.reverse_cons]
              rw [levDist_snoc x y (xs2.reverse.length + ys2.reverse.length)
                xs2.reverse ys2.reverse (le_refl _)]
              have h1 : xs2.length + ys2.length ≤ m := by
                simp only [List.length_cons] at h
                omega
              have h2 : xs2.length + (y :: ys2).length ≤ m := by
                simp only [List.length_cons] at h ⊢
                omega
              have h3 : (x :: xs2).length + ys2.length ≤ m := by
                simp only [List.length_cons] at h ⊢
                omega
              have e1 := ih xs2 ys2 h1
              have e2 := ih xs2 (y :: ys2) h2
              have e3 := ih (x :: xs2) ys2 h3
              rw [List.reverse_cons] at e2 e3
              rw [levDist_cons_cons x xs2 y ys2]
              rw [e1, e2, e3]

theorem rowSpecFrom_headD (ra rb : Str) (bs : Str) (d : Nat) :
    (rowSpecFrom ra rb bs).headD d = levDist ra rb := by
  cases bs <;> rfl

theorem rowSpecFrom_eq_cons (ra rb : Str) (bs : Str) :
    rowSpecFrom ra rb bs = levDist ra rb :: (rowSpecFrom ra rb bs).tail := by
  cases bs <;> rfl

theorem rowSpecFrom_length (ra : Str) :
    ∀ (bs rb : Str), (rowSpecFrom ra rb bs).length = bs.length + 1 := by
  intro bs
  induction bs with
  | nil => intro rb; rfl
  | cons cb bs2 ih =>
      intro rb
      simp only [rowSpecFrom, List.length_cons, ih (cb :: rb)]

theorem levRowRec_spec (ca : Char) :
    ∀ (bs ra rb : Str),
      levRowRec ca bs (rowSpecFrom ra rb bs) (levDist (ca :: ra) rb) =
        (rowSpecFrom (ca :: ra) rb bs).tail := by
  intro bs
  induction bs with
  | nil =>
      intro ra rb
      rfl
  | cons cb bs2 ih =>
      intro ra rb
      have hrow : rowSpecFrom ra rb (cb :: bs2)
          = levDist ra rb :: rowSpecFrom ra (cb :: rb) bs2 := rfl
      rw [hrow]
      simp only [levRowRec, List.headD_cons, List.drop_one, List.tail_cons,
        rowSpecFrom_headD]
      have hv : min (levDist ra (cb :: rb) + 1)
          (min (levDist (ca :: ra) rb + 1)
            (levDist ra rb + (if ca = cb then 0 else 1)))
          = levDist (ca :: ra) (cb :: rb) := by
        by_cases hc : ca = cb
        · rw [if_pos hc, levDist_cons_cons ca ra cb rb, if_pos hc]
          have b1 : levDist ra rb ≤ levDist ra (cb :: rb) + 1 :=
            levDist_le_cons_snd ra rb cb
          have b2 : levDist ra rb ≤ levDist (ca :: ra) rb + 1 :=
            levDist_le_cons_fst ra rb ca
          omega
        · rw [if_neg hc, levDist_cons_cons ca ra cb rb, if_neg hc]
          omega
      rw [hv, ih ra (cb :: rb)]
      exact (rowSpecFrom_eq_cons (ca :: ra) (cb :: rb) bs2).symm

theorem foldl_min_le_init (l : List Nat) : ∀ a : Nat, l.foldl min a ≤ a := by
  induction l with
  | nil =>
      intro a
      exact le_refl a
  | cons x xs ih =>
      intro a
      exact le_trans (ih (min a x)) (min_le_left a x)

theorem foldl_min_le_mem (l : List Nat) :
    ∀ (a x : Nat), x ∈ l → l.foldl min a ≤ x := by
  induction l with
  | nil =>
      intro a x hx
      cases hx
  | cons y ys ih =>
      intro a x hx
      cases hx with
      | head => exact le_trans (foldl_min_le_init ys (min a y)) (min_le_right a y)
      | tail _ h => exact ih (min a y) x h

theorem rowSpecFrom_bound_step (ca : Char) :
    ∀ (bs ra rb : Str) (m : Nat),
      (∀ w ∈ rowSpecFrom ra rb bs, m ≤ w) →
      m ≤ levDist (ca :: ra) rb →
      ∀ v ∈ rowSpecFrom (ca :: ra) rb bs, m ≤ v := by
  intro bs
  induction bs with
  | nil =>
      intro ra rb m hold hhead v hv
      simp only [rowSpecFrom, List.mem_singleton] at hv
      subst hv
      exact hhead
  | cons cb bs2 ih =>
      intro ra rb m hold hhead v hv
      have hexp : rowSpecFrom ra rb (cb :: bs2)
          = levDist ra rb :: rowSpecFrom ra (cb :: rb) bs2 := rfl
      have holdTail : ∀ w ∈ rowSpecFrom ra (cb :: rb) bs2, m ≤ w := by
        intro w hw
        apply hold w
        rw [hexp]
        exact List.mem_cons_of_mem _ hw
      have hheadOld : m ≤ levDist ra rb := by
        apply hold
        rw [hexp]
        exact List.mem_cons_self _ _
      have hheadTailOld : m ≤ levDist ra (cb :: rb) := by
        apply holdTail
        rw [rowSpecFrom_eq_cons]
        exact List.mem_cons_self _ _
      have hnew : m ≤ levDist (ca :: ra) (cb :: rb) := by
        rw [levDist_cons_cons]
        by_cases hc : ca = cb
        · rw [if_pos hc]
          exact hheadOld
        · rw [if_neg hc]
          omega
      have hexp2 : rowSpecFrom (ca :: ra) rb (cb :: bs2)
          = levDist (ca :: ra) rb :: rowSpecFrom (ca :: ra) (cb :: rb) bs2 := rfl
      rw [hexp2] at hv
      cases hv with
      | head => exact hhead
      | tail _ h => exact ih ra (cb :: rb) m holdTail hnew v h

theorem rowSpecFrom_bound_persist :
    ∀ (rest ra b : Str) (m : Nat),
      (∀ w ∈ rowSpecFrom ra [] b, m ≤ w) →
      ∀ w ∈ rowSpecFrom (rest.reverse ++ ra) [] b, m ≤ w := by
  intro rest
  induction rest with
  | nil =>
      intro ra b m h
      simpa using h
  | cons ca rest2 ih =>
      intro ra b m h
      have hhead : m ≤ levDist ra [] := by
        apply h
        rw [rowSpecFrom_eq_cons]
        exact List.mem_cons_self _ _
      have hnext : m ≤ levDist (ca :: ra) [] := by
        rw [levDist_nil_right] at hhead ⊢
        simp only [List.length_cons]
        omega
      have hstep : ∀ v ∈ rowSpecFrom (ca :: ra) [] b, m ≤ v :=
        rowSpecFrom_bound_step ca b ra [] m h hnext
      intro w hw
      apply ih (ca :: ra) b m hstep
      rw [List.reverse_cons, List.append_assoc, List.singleton_append] at hw
      exact hw

theorem rowSpecFrom_last_mem :
    ∀ (bs ra rb : Str), levDist ra (bs.reverse ++ rb) ∈ rowSpecFrom ra rb bs := by
  intro bs
  induction bs with
  | nil =>
      intro ra rb
      simp [rowSpecFrom]
  | cons cb bs2 ih =>
      intro ra rb
      rw [List.reverse_cons, List.append_assoc, List.singleton_append]
      exact List.mem_cons_of_mem _ (ih ra (cb :: rb))

theorem rowSpecFrom_getD_last :
    ∀ (bs ra rb : Str),
      (rowSpecFrom ra rb bs).getD bs.length 0 = levDist ra (bs.reverse ++ rb) := by
  intro bs
  induction bs with
  | nil =>
      intro ra rb
      rfl
  | cons cb bs2 ih =>
      intro ra rb
      rw [List.reverse_cons, List.append_assoc, List.singleton_append]
      have hexp : rowSpecFrom ra rb (cb :: bs2)
          = levDist ra rb :: rowSpecFrom ra (cb :: rb) bs2 := rfl
      rw [hexp, List.length_cons, List.getD_cons_succ]
      exact ih ra (cb :: rb)

theorem rowSpecFrom_nil_eq :
    ∀ (bs rb : Str), rowSpecFrom [] rb bs = List.range' rb.length (bs.length + 1) := by
  intro bs
  induction bs with
  | nil =>
      intro rb
      have hexp : rowSpecFrom [] rb [] = [levDist [] rb] := rfl
      rw [hexp, levDist_nil]
      rfl
  | cons cb bs2 ih =>
      intro rb
      have hexp : rowSpecFrom [] rb (cb :: bs2)
          = levDist [] rb :: rowSpecFrom [] (cb :: rb) bs2 := rfl
      rw [hexp, levDist_nil, ih (cb :: rb)]
      simp [List.range'_succ, List.length_cons]

theorem byteLen_eq_length (s : Str) (h : ∀ c ∈ s, utf8Len c = 1) :
    byteLen s = s.length := by
  induction s with
  | nil => rfl
  | cons c cs ih =>
      have hc : utf8Len c = 1 := h c (List.mem_cons_self _ _)
      have ih2 := ih (fun d hd => h d (List.mem_cons_of_mem _ hd))
      simp only [byteLen, List.map_cons, List.sum_cons, List.length_cons] at ih2 ⊢
      omega

theorem levLoop_spec (b : Str) (k : Nat) :
    ∀ (rest ra : Str) (curr : List Nat),
      curr.length = b.length + 1 →
      (levLoop b k rest ra.length (rowSpecFrom ra [] b) curr
          = some (rowSpecFrom (rest.reverse ++ ra) [] b))
      ∨ (levLoop b k rest ra.length (rowSpecFrom ra [] b) curr = none
          ∧ ∀ w ∈ rowSpecFrom (rest.reverse ++ ra) [] b, k + 1 ≤ w) := by
  intro rest
  induction rest with
  | nil =>
      intro ra curr hc
      left
      simp [levLoop]
  | cons ca rest2 ih =>
      intro ra curr hc
      have h0 : levDist (ca :: ra) [] = ra.length + 1 := by
        rw [levDist_nil_right]
        rfl
      have hrow : levRowRec ca b (rowSpecFrom ra [] b) (ra.length + 1)
          = (rowSpecFrom (ca :: ra) [] b).tail := by
        rw [← h0]
        exact levRowRec_spec ca b ra []
      have hdrop : curr.drop (b.length + 1) = [] := by
        rw [← hc]
        exact List.drop_length curr
      have hfull : (ra.length + 1) :: (rowSpecFrom (ca :: ra) [] b).tail
          = rowSpecFrom (ca :: ra) [] b := by
        rw [← h0]
        exact (rowSpecFrom_eq_cons (ca :: ra) [] b).symm
      have hra : (ca :: rest2).reverse ++ ra = rest2.reverse ++ (ca :: ra) := by
        rw [List.reverse_cons, List.append_assoc, List.singleton_append]
      simp only [levLoop, hrow, hdrop, List.append_nil, hfull]
      by_cases hex :
          ((rowSpecFrom (ca :: ra) [] b).tail.foldl min (ra.length + 1)) > k
      · rw [if_pos hex]
        right
        refine ⟨rfl, ?_⟩
        have hbound : ∀ w ∈ rowSpecFrom (ca :: ra) [] b, k + 1 ≤ w := by
          intro w hw
          rw [← hfull] at hw
          cases hw with
          | head =>
              have := foldl_min_le_init (rowSpecFrom (ca :: ra) [] b).tail
                (ra.length + 1)
              omega
          | tail _ h =>
              have := foldl_min_le_mem (rowSpecFrom (ca :: ra) [] b).tail
                (ra.length + 1) w h
              omega
        intro w hw
        rw [hra] at hw
        exact rowSpecFrom_bound_persist rest2 (ca :: ra) b (k + 1) hbound w hw
      · rw [if_neg hex]
        have hlen : (rowSpecFrom ra [] b).length = b.length + 1 :=
          rowSpecFrom_length ra b []
        have hrec := ih (ca :: ra) (rowSpecFrom ra [] b) hlen
        rw [hra]
        exact hrec

/-- Claim C9 counterexample: `levenshtein_cutoff` measures the inputs with
`str::len` (bytes) and sizes both rows by the byte length of `b`, reading the
answer at byte index `lb`.  For `a = "a"`, `b = "日"` (3 UTF-8 bytes, one
char) with maximum distance 2 it returns `some 0` although the true edit
distance is 1, refusing the claim that it returns the exact distance for every
pair of strings. -/
theorem C9_levenshtein_counterexample :
    levenshtein_cutoff (str "a") (str "日") 2 = some 0 ∧
      levDist (str "a") (str "日") = 1 := by
  constructor
  · rfl
  · have hne : ('a' : Char) ≠ '日' := by decide
    rw [show str "a" = ['a'] from rfl, show str "日" = ['日'] from rfl]
    rw [levDist_cons_cons, if_neg hne, levDist_nil ['日'], levDist_nil [],
      levDist_nil_right ['a']]
    decide

/-- Claim C9 (amended): restricted to strings of single-byte characters
(where byte and character indexing agree), `levenshtein_cutoff a b k` returns
`none` when the lengths differ by more than `k`, `some d` with `d` the exact
Levenshtein distance when `d ≤ k`, and `none` otherwise; the early-exit row
minimum never changes the answer. -/
theorem C9_levenshtein_amended (a b : Str) (k : Nat)
    (ha : ∀ c ∈ a, utf8Len c = 1) (hb : ∀ c ∈ b, utf8Len c = 1) :
    levenshtein_cutoff a b k =
      if absDiff a.length b.length > k then none
      else if levDist a b ≤ k then some (levDist a b) else none := by
  have hba : byteLen a = a.length := byteLen_eq_length a ha
  have hbb : byteLen b = b.length := byteLen_eq_length b hb
  have hlev : levDist a.reverse b.reverse = levDist a b :=
    levDist_reverse (a.length + b.length) a b (le_refl _)
  simp only [levenshtein_cutoff, hba, hbb]
  by_cases hd : absDiff a.length b.length > k
  · rw [if_pos hd, if_pos hd]
  · rw [if_neg hd, if_neg hd]
    have hinit : List.range (b.length + 1) = rowSpecFrom [] [] b := by
      simp [rowSpecFrom_nil_eq, List.range_eq_range']
    have hloop := levLoop_spec b k a [] (List.replicate (b.length + 1) 0)
      (List.length_replicate _ _)
    simp only [List.length_nil, List.append_nil] at hloop
    rw [← hinit] at hloop
    rcases hloop with hsome | ⟨hnone, hbig⟩
    · rw [hsome]
      have hd2 : (rowSpecFrom a.reverse [] b).getD b.length 0 = levDist a b := by
        rw [rowSpecFrom_getD_last b a.reverse [], List.append_nil]
        exact hlev
      simp only [hd2]
    · rw [hnone]
      have hmem := rowSpecFrom_last_mem b a.reverse []
      rw [List.append_nil] at hmem
      have hgt := hbig _ hmem
      rw [hlev] at hgt
      have hnot : ¬ (levDist a b ≤ k) := by omega
      rw [if_neg hnot]

/-- Claim C9 witness: the amended statement applied to the spec's own
example, `a = "gcc"`, `b = "gcd"`, maximum distance 2, yielding `some 1`. -/
theorem C9_levenshtein_amended_witness :
    levenshtein_cutoff (str "gcc") (str "gcd") 2 = some 1 := by
  have h := C9_levenshtein_amended (str "gcc") (str "gcd") 2 (by decide) (by decide)
  rw [h]
  have h1 : levDist (str "gcc") (str "gcd") = 1 := by
    have hg : ('g' : Char) = 'g' := rfl
    have hc : ('c' : Char) = 'c' := rfl
    have hne : ¬ (('c' : Char) = 'd') := by decide
    rw [show str "gcc" = 'g' :: 'c' :: 'c' :: [] from rfl,
      show str "gcd" = 'g' :: 'c' :: 'd' :: [] from rfl]
    rw [levDist_cons_cons, if_pos hg]
    rw [levDist_cons_cons, if_pos hc]
    rw [levDist_cons_cons, if_neg hne, levDist_nil ['d'], levDist_nil [],
      levDist_nil_right ['c']]
    decide
  rw [h1]
  decide

theorem foldl_id_of_step {α : Type} (f : ℝ → α → ℝ) (h : ∀ s x, f s x = s) :
    ∀ (l : List α) (s : ℝ), l.foldl f s = s := by
  intro l
  induction l with
  | nil =>
      intro s
      rfl
  | cons x xs ih =>
      intro s
      rw [List.foldl_cons, h s x]
      exact ih s

theorem scoreWord_zero (candidates : List Pkg) (pkg : Pkg) (q : Str)
    (h : Real.log (((max candidates.length 1 : Nat) : ℝ)
        / ((max (dfCount candidates q) 1 : Nat) : ℝ)) = 0) :
    scoreWord candidates pkg q = 0 := by
  have hstep : ∀ (s : ℝ) (token : Str),
      (if absDiff (byteLen token) (byteLen q) > 2 then s
       else
         match levenshtein_cutoff token q 2 with
         | some d => s + fuzzy_weight d * 0
         | none => s) = s := by
    intro s token
    by_cases hc : absDiff (byteLen token) (byteLen q) > 2
    · rw [if_pos hc]
    · rw [if_neg hc]
      cases levenshtein_cutoff token q 2 with
      | none => rfl
      | some d =>
          show s + fuzzy_weight d * 0 = s
          rw [mul_zero, add_zero]
  simp only [scoreWord]
  rw [h]
  rw [foldl_id_of_step _ hstep]
  simp

theorem scorePkg_single (candidates : List Pkg) (pkg : Pkg) (q : Str)
    (h : scoreWord candidates pkg q = 0) :
    scorePkg candidates [q] pkg = 0 := by
  simp [scorePkg, h]

/-- Claim C2 counterexample: on the claim's own two-candidate cache, both
candidates match the query `browser` only through their shared description,
so `df = total`, the inverse-document-frequency factor is `ln 1 = 0`, every
score contribution is multiplied by zero, and `score_packages` drops both
(score `> 0` required): `search("browser")` returns the empty list, not both
packages. -/
theorem C2_search_counterexample :
    search cfgExtra dbBrowse [str "browser"] = [] := by
  have hqw : tokenize (strJoin [' '] [str "browser"]) = [str "browser"] := rfl
  have hexp : expand_query_words dbBrowse [str "browser"] = [str "browser"] := rfl
  have hcand : select_candidates cfgExtra dbBrowse [str "browser"]
      = [⟨str "firefox", str "1.0", str "extra", str "web browser"⟩,
         ⟨str "chromium", str "2.0", str "extra", str "web browser"⟩] := rfl
  have hlog : Real.log
      (((max ([⟨str "firefox", str "1.0", str "extra", str "web browser"⟩,
          ⟨str "chromium", str "2.0", str "extra", str "web browser"⟩] :
            List Pkg).length 1 : Nat) : ℝ)
        / ((max (dfCount [⟨str "firefox", str "1.0", str "extra", str "web browser"⟩,
          ⟨str "chromium", str "2.0", str "extra", str "web browser"⟩]
            (str "browser")) 1 : Nat) : ℝ)) = 0 := by
    have hdf : dfCount [⟨str "firefox", str "1.0", str "extra", str "web browser"⟩,
        ⟨str "chromium", str "2.0", str "extra", str "web browser"⟩]
          (str "browser") = 2 := rfl
    rw [hdf]
    norm_num [Real.log_one]
  have hz : ∀ pkg : Pkg,
      scorePkg [⟨str "firefox", str "1.0", str "extra", str "web browser"⟩,
        ⟨str "chromium", str "2.0", str "extra", str "web browser"⟩]
        [str "browser"] pkg = 0 := by
    intro pkg
    exact scorePkg_single _ _ _ (scoreWord_zero _ pkg (str "browser") hlog)
  have hscore : score_packages
      [⟨str "firefox", str "1.0", str "extra", str "web browser"⟩,
        ⟨str "chromium", str "2.0", str "extra", str "web browser"⟩]
      [str "browser"] = [] := by
    simp [score_packages, hz _, lt_irrefl]
  simp only [search]
  rw [hqw]
  rw [if_neg (List.cons_ne_nil _ _), hexp, hcand]
  rw [if_neg (List.cons_ne_nil _ _), hscore]
  rfl

/-- Claim C2 (amended): for the claim's two-candidate cache the idf weight
`ln(total/df)` degenerates to zero for both example queries (`browser`:
`df = total = 2`; `firefox`: the only candidate is firefox itself, so
`df = total = 1`), every candidate's total score is exactly zero, and since
`score_packages` keeps only strictly positive scores, both
`search("browser")` and `search("firefox")` return the empty list — neither
"both with equal score" nor "firefox ranked above chromium". -/
theorem C2_search_amended :
    (∀ pkg : Pkg,
      scorePkg [⟨str "firefox", str "1.0", str "extra", str "web browser"⟩,
        ⟨str "chromium", str "2.0", str "extra", str "web browser"⟩]
        [str "browser"] pkg = 0) ∧
    search cfgExtra dbBrowse [str "browser"] = [] ∧
    search cfgExtra dbBrowse [str "firefox"] = [] := by
  have hlog : Real.log
      (((max ([⟨str "firefox", str "1.0", str "extra", str "web browser"⟩,
          ⟨str "chromium", str "2.0", str "extra", str "web browser"⟩] :
            List Pkg).length 1 : Nat) : ℝ)
        / ((max (dfCount [⟨str "firefox", str "1.0", str "extra", str "web browser"⟩,
          ⟨str "chromium", str "2.0", str "extra", str "web browser"⟩]
            (str "browser")) 1 : Nat) : ℝ)) = 0 := by
    have hdf : dfCount [⟨str "firefox", str "1.0", str "extra", str "web browser"⟩,
        ⟨str "chromium", str "2.0", str "extra", str "web browser"⟩]
          (str "browser") = 2 := rfl
    rw [hdf]
    norm_num [Real.log_one]
  have hz : ∀ pkg : Pkg,
      scorePkg [⟨str "firefox", str "1.0", str "extra", str "web browser"⟩,
        ⟨str "chromium", str "2.0", str "extra", str "web browser"⟩]
        [str "browser"] pkg = 0 := by
    intro pkg
    exact scorePkg_single _ _ _ (scoreWord_zero _ pkg (str "browser") hlog)
  refine ⟨hz, ?_, ?_⟩
  · have hqw : tokenize (strJoin [' '] [str "browser"]) = [str "browser"] := rfl
    have hexp : expand_query_words dbBrowse [str "browser"] = [str "browser"] := rfl
    have hcand : select_candidates cfgExtra dbBrowse [str "browser"]
        = [⟨str "firefox", str "1.0", str "extra", str "web browser"⟩,
           ⟨str "chromium", str "2.0", str "extra", str "web browser"⟩] := rfl
    have hscore : score_packages
        [⟨str "firefox", str "1.0", str "extra", str "web browser"⟩,
          ⟨str "chromium", str "2.0", str "extra", str "web browser"⟩]
        [str "browser"] = [] := by
      simp [score_packages, hz _, lt_irrefl]
    simp only [search]
    rw [hqw]
    rw [if_neg (List.cons_ne_nil _ _), hexp, hcand]
    rw [if_neg (List.cons_ne_nil _ _), hscore]
    rfl
  · have hqw : tokenize (strJoin [' '] [str "firefox"]) = [str "firefox"] := rfl
    have hexp : expand_query_words dbBrowse [str "firefox"] = [str "firefox"] := rfl
    have hcand : select_candidates cfgExtra dbBrowse [str "firefox"]
        = [⟨str "firefox", str "1.0", str "extra", str "web browser"⟩] := rfl
    have hlog1 : Real.log
        (((max ([⟨str "firefox", str "1.0", str "extra", str "web browser"⟩] :
              List Pkg).length 1 : Nat) : ℝ)
          / ((max (dfCount [⟨str "firefox", str "1.0", str "extra", str "web browser"⟩]
              (str "firefox")) 1 : Nat) : ℝ)) = 0 := by
      have hdf : dfCount [⟨str "firefox", str "1.0", str "extra", str "web browser"⟩]
          (str "firefox") = 1 := rfl
      rw [hdf]
      norm_num [Real.log_one]
    have hz1 : ∀ pkg : Pkg,
        scorePkg [⟨str "firefox", str "1.0", str "extra", str "web browser"⟩]
          [str "firefox"] pkg = 0 := by
      intro pkg
      exact scorePkg_single _ _ _ (scoreWord_zero _ pkg (str "firefox") hlog1)
    have hscore : score_packages
        [⟨str "firefox", str "1.0", str "extra", str "web browser"⟩]
        [str "firefox"] = [] := by
      simp [score_packages, hz1 _, lt_irrefl]
    simp only [search]
    rw [hqw]
    rw [if_neg (List.cons_ne_nil _ _), hexp, hcand]
    rw [if_neg (List.cons_ne_nil _ _), hscore]
    rfl

theorem lookupId_eq_of_mem (m : List (Str × Str)) (k n : Str)
    (hmem : (k, n) ∈ m) (huniq : ∀ p ∈ m, p.1 = k → p.2 = n) :
    lookupId m k = some n := by
  induction m with
  | nil => cases hmem
  | cons p m' ih =>
      by_cases hp : p.1 = k
      · have hn := huniq p (List.mem_cons_self p m') hp
        have hfind : List.find? (fun q => decide (q.1 = k)) (p :: m') = some p := by
          rw [List.find?_cons_of_pos]
          exact decide_eq_true hp
        rw [lookupId, hfind]
        simp [hn]
      · have hmem' : (k, n) ∈ m' := by
          rcases List.mem_cons.mp hmem with h | h
          · subst h
            exact absurd rfl hp
          · exact h
        have hfind : List.find? (fun q => decide (q.1 = k)) (p :: m')
            = List.find? (fun q => decide (q.1 = k)) m' := by
          rw [List.find?_cons_of_neg]
          simpa using hp
        rw [lookupId, hfind]
        exact ih hmem' (fun q hq hq1 => huniq q (List.mem_cons_of_mem p hq) hq1)

theorem cachedSet_nil_of_fresh (repo : Str) (db : Db)
    (h : ∀ r ∈ db.descs, r.repo ≠ repo) : cachedSet repo db = [] := by
  rw [cachedSet, List.map_eq_nil_iff, List.filter_eq_nil_iff]
  intro r hr
  simp [h r hr]

theorem mem_cachedSet_of_row {db : Db} {repo n v d : Str}
    (h : (⟨n, v, d, repo, true⟩ : PkgRow) ∈ db.descs) :
    n ++ str "-" ++ v ∈ cachedSet repo db := by
  rw [cachedSet]
  refine List.mem_map.mpr ⟨⟨n, v, d, repo, true⟩, ?_, rfl⟩
  refine List.mem_filter.mpr ⟨h, ?_⟩
  simp

theorem noop_desc (repo : Str) (cached : List Str) :
    ∀ (es : List Entry) (st : UpdState),
      (∀ e ∈ es, e.fname = str "desc" → e.id ∈ cached) →
      foldO (desc_step repo cached) st es = Outcome.ok st := by
  intro es
  induction es with
  | nil =>
      intro st _
      rfl
  | cons e es' ih =>
      intro st h
      have hcond : e.fname ≠ str "desc" ∨ e.id ∈ cached := by
        by_cases hf : e.fname = str "desc"
        · exact Or.inr (h e (List.mem_cons_self e es') hf)
        · exact Or.inl hf
      have hstep : desc_step repo cached st e = Outcome.ok st := by
        simp only [desc_step, if_pos hcond]
      simp only [foldO, hstep]
      exact ih st (fun f hf => h f (List.mem_cons_of_mem e hf))

theorem noop_files (repo : Str) (cached : List Str) :
    ∀ (es : List Entry) (st : UpdState), st.idMap = [] →
      foldO (files_step repo cached) st es = Outcome.ok st := by
  intro es
  induction es with
  | nil =>
      intro st _
      rfl
  | cons e es' ih =>
      intro st hm
      have hstep : files_step repo cached st e = Outcome.ok st := by
        by_cases hcond : e.fname ≠ str "files" ∨ e.id ∈ cached
        · simp only [files_step, if_pos hcond]
        · simp only [files_step, if_neg hcond, hm]
          rfl
      simp only [foldO, hstep]
      exact ih st hm

theorem update_cache_repo_noop (repo : Str) (entries : List Entry) (db : Db)
    (H : ∀ e ∈ entries, e.fname = str "desc" → e.id ∈ cachedSet repo db) :
    update_cache_repo repo entries db = Outcome.ok (db, []) := by
  have h1 := noop_desc repo (cachedSet repo db) entries ⟨db, [], []⟩ H
  have h2 := noop_files repo (cachedSet repo db) entries ⟨db, [], []⟩ rfl
  simp only [update_cache_repo, h1, h2]

theorem update_cache_repo_eq (repo : Str) (entries : List Entry) (db : Db)
    (st1 st2 : UpdState)
    (h1 : foldO (desc_step repo (cachedSet repo db)) ⟨db, [], []⟩ entries
      = Outcome.ok st1)
    (h2 : foldO (files_step repo (cachedSet repo db)) st1 entries
      = Outcome.ok st2) :
    update_cache_repo repo entries db = Outcome.ok (st2.db, st2.processed) := by
  simp only [update_cache_repo, h1, h2]

theorem files_tx_descs (repo n : Str) (content : List Str) (db : Db) :
    (commitTx (runOps (beginTx db) (replace_files_ops repo n content))).descs =
      db.descs.map (fun r => if r.repo = repo ∧ r.name = n then
        (⟨r.name, r.version, r.desc, r.repo, true⟩ : PkgRow) else r) := by
  rw [commitTx, runOps_pending]
  simp only [replace_files_ops, beginTx]
  rw [List.foldl_append, List.foldl_cons, List.foldl_cons, List.foldl_nil]
  show (applyOp _ (TxOp.setDone repo n)).descs = _
  simp only [applyOp]
  rw [descs_ins_fold]

theorem desc_fold_run (repo : Str) :
    ∀ (es : List Entry) (st : UpdState),
      (∀ e ∈ es, e.fname = str "desc" →
        ∃ n v d, parse_desc_fields e.content = (some n, some v, d)) →
      ∃ st1, foldO (desc_step repo []) st es = Outcome.ok st1
        ∧ (∀ p ∈ st.idMap, p ∈ st1.idMap)
        ∧ (∀ p ∈ st1.idMap, p ∈ st.idMap ∨ ∃ f, f ∈ es ∧ f.fname = str "desc" ∧
            ∃ n v d, parse_desc_fields f.content = (some n, some v, d) ∧
              p.1 = f.id ∧ p.2 = n)
        ∧ (∀ n v d, (⟨n, v, d, repo, false⟩ : PkgRow) ∈ st.db.descs →
            (∀ f, f ∈ es → f.fname = str "desc" →
              ∀ n2 v2 d2, parse_desc_fields f.content = (some n2, some v2, d2) →
                n2 = n → v2 = v ∧ d2.getD [] = d) →
            (⟨n, v, d, repo, false⟩ : PkgRow) ∈ st1.db.descs)
        ∧ (∀ e, e ∈ es → e.fname = str "desc" →
            ∀ n v d, parse_desc_fields e.content = (some n, some v, d) →
            (∀ f, f ∈ es → f.fname = str "desc" →
              ∀ n2 v2 d2, parse_desc_fields f.content = (some n2, some v2, d2) →
                n2 = n → v2 = v ∧ d2 = d) →
            (e.id, n) ∈ st1.idMap ∧
              (⟨n, v, d.getD [], repo, false⟩ : PkgRow) ∈ st1.db.descs) := by
  intro es
  induction es with
  | nil =>
      intro st _
      exact ⟨st, rfl, fun p hp => hp, fun p hp => Or.inl hp,
        fun n v d hm _ => hm, fun e he => absurd he (List.not_mem_nil e)⟩
  | cons e es' ih =>
      intro st hparse
      by_cases hf : e.fname = str "desc"
      · obtain ⟨n, v, d, hp⟩ := hparse e (List.mem_cons_self e es') hf
        have hcond : ¬(e.fname ≠ str "desc" ∨ e.id ∈ ([] : List Str)) := by
          simp [hf]
        have hstep : desc_step repo [] st e = Outcome.ok
            ⟨{ st.db with
                descs := upsert_desc ⟨n, v, d.getD [], repo, false⟩ st.db.descs },
              (e.id, n) :: st.idMap, st.processed ++ [e.id]⟩ := by
          simp only [desc_step, if_neg hcond, hp]
        obtain ⟨st1, hfold, hmono, hprov, hpers, hmem⟩ := ih
          ⟨{ st.db with
              descs := upsert_desc ⟨n, v, d.getD [], repo, false⟩ st.db.descs },
            (e.id, n) :: st.idMap, st.processed ++ [e.id]⟩
          (fun f hfm hff => hparse f (List.mem_cons_of_mem e hfm) hff)
        refine ⟨st1, ?_, ?_, ?_, ?_, ?_⟩
        · simp only [foldO, hstep]
          exact hfold
        · intro p hpp
          exact hmono p (List.mem_cons_of_mem _ hpp)
        · intro p hpp
          rcases hprov p hpp with hin | ⟨f, hfm, hff, n2, v2, d2, hp2, h1, h2⟩
          · rcases List.mem_cons.mp hin with h | h
            · right
              exact ⟨e, List.mem_cons_self e es', hf, n, v, d, hp,
                by rw [h], by rw [h]⟩
            · exact Or.inl h
          · exact Or.inr
              ⟨f, List.mem_cons_of_mem e hfm, hff, n2, v2, d2, hp2, h1, h2⟩
        · intro n0 v0 d0 hmm0 hagree
          have hnew : (⟨n0, v0, d0, repo, false⟩ : PkgRow) ∈
              upsert_desc ⟨n, v, d.getD [], repo, false⟩ st.db.descs := by
            by_cases hn : n = n0
            · have h1 := hagree e (List.mem_cons_self e es') hf n v d hp hn
              subst hn
              obtain ⟨hv, hd⟩ := h1
              subst hv
              subst hd
              rw [upsert_desc]
              exact List.mem_append_right _ (List.mem_cons_self _ _)
            · have hn' : n0 ≠ n := fun h => hn h.symm
              rw [upsert_desc]
              apply List.mem_append_left
              refine List.mem_filter.mpr ⟨hmm0, ?_⟩
              simp [hn']
          exact hpers n0 v0 d0 hnew
            (fun f hfm hff n2 v2 d2 hp2 hn2 =>
              hagree f (List.mem_cons_of_mem e hfm) hff n2 v2 d2 hp2 hn2)
        · intro e2 he2 hf2 n0 v0 d0 hp0 hagree
          rcases List.mem_cons.mp he2 with he2e | he2t
          · subst he2e
            have heq := hp.symm.trans hp0
            simp only [Prod.mk.injEq, Option.some.injEq] at heq
            obtain ⟨hn0, hv0, hd0⟩ := heq
            subst hn0
            subst hv0
            subst hd0
            constructor
            · exact hmono (e2.id, n) (List.mem_cons_self _ _)
            · have hnew : (⟨n, v, d.getD [], repo, false⟩ : PkgRow) ∈
                  upsert_desc ⟨n, v, d.getD [], repo, false⟩ st.db.descs := by
                rw [upsert_desc]
                exact List.mem_append_right _ (List.mem_cons_self _ _)
              exact hpers n v (d.getD []) hnew
                (fun f hfm hff n2 v2 d2 hp2 hn2 => by
                  have h2 := hagree f (List.mem_cons_of_mem e2 hfm) hff n2 v2 d2 hp2 hn2
                  exact ⟨h2.1, by rw [h2.2]⟩)
          · exact hmem e2 he2t hf2 n0 v0 d0 hp0
              (fun f hfm hff n2 v2 d2 hp2 hn2 =>
                hagree f (List.mem_cons_of_mem e hfm) hff n2 v2 d2 hp2 hn2)
      · have hcond : e.fname ≠ str "desc" ∨ e.id ∈ ([] : List Str) := Or.inl hf
        have hstep : desc_step repo [] st e = Outcome.ok st := by
          simp only [desc_step, if_pos hcond]
        obtain ⟨st1, hfold, hmono, hprov, hpers, hmem⟩ := ih st
          (fun f hfm hff => hparse f (List.mem_cons_of_mem e hfm) hff)
        refine ⟨st1, ?_, hmono, ?_, ?_, ?_⟩
        · simp only [foldO, hstep]
          exact hfold
        · intro p hpp
          rcases hprov p hpp with h | ⟨f, hfm, hrest⟩
          · exact Or.inl h
          · exact Or.inr ⟨f, List.mem_cons_of_mem e hfm, hrest⟩
        · intro n0 v0 d0 hmm0 hagree
          exact hpers n0 v0 d0 hmm0
            (fun f hfm hff n2 v2 d2 hp2 hn2 =>
              hagree f (List.mem_cons_of_mem e hfm) hff n2 v2 d2 hp2 hn2)
        · intro e2 he2 hf2 n0 v0 d0 hp0 hagree
          rcases List.mem_cons.mp he2 with he2e | he2t
          · rw [he2e] at hf2
            exact absurd hf2 hf
          · exact hmem e2 he2t hf2 n0 v0 d0 hp0
              (fun f hfm hff n2 v2 d2 hp2 hn2 =>
                hagree f (List.mem_cons_of_mem e hfm) hff n2 v2 d2 hp2 hn2)

theorem mem_map_flip (l : List PkgRow) (repo n n0 v d : Str) (dn : Bool)
    (h : (⟨n0, v, d, repo, dn⟩ : PkgRow) ∈ l) :
    (⟨n0, v, d, repo, dn⟩ : PkgRow) ∈ l.map (fun r =>
      if r.repo = repo ∧ r.name = n then
        (⟨r.name, r.version, r.desc, r.repo, true⟩ : PkgRow) else r) ∨
    (⟨n0, v, d, repo, true⟩ : PkgRow) ∈ l.map (fun r =>
      if r.repo = repo ∧ r.name = n then
        (⟨r.name, r.version, r.desc, r.repo, true⟩ : PkgRow) else r) := by
  by_cases hn : n0 = n
  · right
    refine List.mem_map.mpr ⟨⟨n0, v, d, repo, dn⟩, h, ?_⟩
    rw [if_pos ⟨rfl, hn⟩]
  · left
    refine List.mem_map.mpr ⟨⟨n0, v, d, repo, dn⟩, h, ?_⟩
    rw [if_neg (fun hc => hn hc.2)]

theorem files_fold_run (repo : Str) :
    ∀ (es : List Entry) (st : UpdState),
      ∃ st2, foldO (files_step repo []) st es = Outcome.ok st2
        ∧ st2.idMap = st.idMap
        ∧ (∀ n v, (∃ d, (⟨n, v, d, repo, true⟩ : PkgRow) ∈ st.db.descs) →
            ∃ d, (⟨n, v, d, repo, true⟩ : PkgRow) ∈ st2.db.descs)
        ∧ (∀ e, e ∈ es → e.fname = str "files" →
            ∀ n, lookupId st.idMap e.id = some n →
            ∀ v, (∃ d dn, (⟨n, v, d, repo, dn⟩ : PkgRow) ∈ st.db.descs) →
              ∃ d, (⟨n, v, d, repo, true⟩ : PkgRow) ∈ st2.db.descs) := by
  intro es
  induction es with
  | nil =>
      intro st
      exact ⟨st, rfl, rfl, fun n v h => h, fun e he => absurd he (List.not_mem_nil e)⟩
  | cons e es' ih =>
      intro st
      by_cases hf : e.fname = str "files"
      · cases hlook : lookupId st.idMap e.id with
        | none =>
            have hcond : ¬(e.fname ≠ str "files" ∨ e.id ∈ ([] : List Str)) := by
              simp [hf]
            have hstep : files_step repo [] st e = Outcome.ok st := by
              simp only [files_step, if_neg hcond, hlook]
            obtain ⟨st2, hfold, hmap, hkeep, hflip⟩ := ih st
            refine ⟨st2, ?_, hmap, hkeep, ?_⟩
            · simp only [foldO, hstep]
              exact hfold
            · intro e2 he2 hf2 n hlook2 v hrow
              rcases List.mem_cons.mp he2 with he | he
              · rw [he] at hlook2
                exact Option.noConfusion (hlook2.symm.trans hlook)
              · exact hflip e2 he hf2 n hlook2 v hrow
        | some pn =>
            have hcond : ¬(e.fname ≠ str "files" ∨ e.id ∈ ([] : List Str)) := by
              simp [hf]
            have hstep : files_step repo [] st e = Outcome.ok
                { st with db := commitTx (runOps (beginTx st.db)
                    (replace_files_ops repo pn e.content)) } := by
              simp only [files_step, if_neg hcond, hlook]
            obtain ⟨st2, hfold, hmap, hkeep, hflip⟩ := ih
              { st with db := commitTx (runOps (beginTx st.db)
                  (replace_files_ops repo pn e.content)) }
            have hdescs : ({ st with db := commitTx (runOps (beginTx st.db)
                (replace_files_ops repo pn e.content)) } : UpdState).db.descs
                = st.db.descs.map (fun r => if r.repo = repo ∧ r.name = pn then
                    (⟨r.name, r.version, r.desc, r.repo, true⟩ : PkgRow) else r) :=
              files_tx_descs repo pn e.content st.db
            refine ⟨st2, ?_, ?_, ?_, ?_⟩
            · simp only [foldO, hstep]
              exact hfold
            · exact hmap
            · intro n0 v hex
              obtain ⟨d, hd⟩ := hex
              rcases mem_map_flip st.db.descs repo pn n0 v d true hd with h1 | h1
              · exact hkeep n0 v ⟨d, by rw [hdescs]; exact h1⟩
              · exact hkeep n0 v ⟨d, by rw [hdescs]; exact h1⟩
            · intro e2 he2 hf2 n hlook2 v hrow
              rcases List.mem_cons.mp he2 with he | he
              · rw [he] at hlook2
                have hnp : pn = n := Option.some.inj (hlook.symm.trans hlook2)
                subst hnp
                obtain ⟨d, dn, hd⟩ := hrow
                have hflipd : (⟨pn, v, d, repo, true⟩ : PkgRow) ∈
                    ({ st with db := commitTx (runOps (beginTx st.db)
                      (replace_files_ops repo pn e.content)) } : UpdState).db.descs := by
                  rw [hdescs]
                  refine List.mem_map.mpr ⟨⟨pn, v, d, repo, dn⟩, hd, ?_⟩
                  rw [if_pos ⟨rfl, rfl⟩]
                exact hkeep pn v ⟨d, hflipd⟩
              · obtain ⟨d, dn, hd⟩ := hrow
                rcases mem_map_flip st.db.descs repo pn n v d dn hd with h1 | h1
                · exact hflip e2 he hf2 n hlook2 v ⟨d, dn, by rw [hdescs]; exact h1⟩
                · exact hflip e2 he hf2 n hlook2 v ⟨d, true, by rw [hdescs]; exact h1⟩
      · have hcond : e.fname ≠ str "files" ∨ e.id ∈ ([] : List Str) := Or.inl hf
        have hstep : files_step repo [] st e = Outcome.ok st := by
          simp only [files_step, if_pos hcond]
        obtain ⟨st2, hfold, hmap, hkeep, hflip⟩ := ih st
        refine ⟨st2, ?_, hmap, hkeep, ?_⟩
        · simp only [foldO, hstep]
          exact hfold
        · intro e2 he2 hf2 n hlook2 v hrow
          rcases List.mem_cons.mp he2 with he | he
          · rw [he] at hf2
            exact absurd hf2 hf
          · exact hflip e2 he hf2 n hlook2 v hrow

/-- Claim C4: running the updater a second time over the same unchanged
archive entries is a complete no-op.  For a repository-fresh starting
database and a well-formed archive (each desc entry parses and its
identifier is `name-version`, each desc entry has a files entry with the
same identifier, and name or identifier determines the whole desc entry),
if the first run produced `db1` then the second run returns `db1` itself
with an empty list of newly processed identifiers: every entry whose
identifier is now marked files-indexed is skipped in both passes. -/
theorem C4_update_idempotent (repo : Str) (entries : List Entry)
    (db0 db1 : Db) (P : List Str)
    (Hfresh : ∀ r ∈ db0.descs, r.repo ≠ repo)
    (Hparse : ∀ e ∈ entries, e.fname = str "desc" →
      ∃ n v d, parse_desc_fields e.content = (some n, some v, d) ∧
        e.id = n ++ str "-" ++ v)
    (Hfiles : ∀ e ∈ entries, e.fname = str "desc" →
      ∃ f, f ∈ entries ∧ f.fname = str "files" ∧ f.id = e.id)
    (Hdet : ∀ e ∈ entries, ∀ f ∈ entries, e.fname = str "desc" →
      f.fname = str "desc" →
      ∀ n v d n2 v2 d2, parse_desc_fields e.content = (some n, some v, d) →
        parse_desc_fields f.content = (some n2, some v2, d2) →
        (n = n2 ∨ e.id = f.id) → n = n2 ∧ v = v2 ∧ d = d2 ∧ e.id = f.id)
    (Hrun1 : update_cache_repo repo entries db0 = Outcome.ok (db1, P)) :
    update_cache_repo repo entries db1 = Outcome.ok (db1, []) := by
  have hcache0 : cachedSet repo db0 = [] := cachedSet_nil_of_fresh repo db0 Hfresh
  obtain ⟨st1, hfoldA, hmonoA, hprovA, hpersA, hmemA⟩ :=
    desc_fold_run repo entries ⟨db0, [], []⟩
      (fun e he hf => by
        obtain ⟨n, v, d, hp, _⟩ := Hparse e he hf
        exact ⟨n, v, d, hp⟩)
  obtain ⟨st2, hfoldB, hmapB, hkeepB, hflipB⟩ := files_fold_run repo entries st1
  have hrun1' : update_cache_repo repo entries db0
      = Outcome.ok (st2.db, st2.processed) :=
    update_cache_repo_eq repo entries db0 st1 st2
      (by rw [hcache0]; exact hfoldA) (by rw [hcache0]; exact hfoldB)
  have hok : Outcome.ok (st2.db, st2.processed)
      = Outcome.ok ((db1, P) : Db × List Str) := hrun1'.symm.trans Hrun1
  have hpair := Outcome.ok.inj hok
  have hdb : st2.db = db1 := congrArg Prod.fst hpair
  apply update_cache_repo_noop
  intro e he hf
  obtain ⟨n, v, d, hp, hid⟩ := Hparse e he hf
  have hagree : ∀ f, f ∈ entries → f.fname = str "desc" →
      ∀ n2 v2 d2, parse_desc_fields f.content = (some n2, some v2, d2) →
        n2 = n → v2 = v ∧ d2 = d := by
    intro f hfm hff n2 v2 d2 hp2 hn2
    have h := Hdet e he f hfm hf hff n v d n2 v2 d2 hp hp2 (Or.inl hn2.symm)
    exact ⟨h.2.1.symm, h.2.2.1.symm⟩
  obtain ⟨hpair1, hrow1⟩ := hmemA e he hf n v d hp hagree
  have huniq : ∀ p ∈ st1.idMap, p.1 = e.id → p.2 = n := by
    intro p hpp hp1
    rcases hprovA p hpp with hnil | ⟨f, hfm, hff, n2, v2, d2, hp2, hk, hv2⟩
    · exact absurd hnil (List.not_mem_nil p)
    · have hfe : e.id = f.id := hp1.symm.trans hk
      have h := Hdet e he f hfm hf hff n v d n2 v2 d2 hp hp2 (Or.inr hfe)
      rw [hv2]
      exact h.1.symm
  have hlook : lookupId st1.idMap e.id = some n :=
    lookupId_eq_of_mem st1.idMap e.id n hpair1 huniq
  obtain ⟨g, hgm, hgf, hgid⟩ := Hfiles e he hf
  obtain ⟨d3, hrow2⟩ := hflipB g hgm hgf n (by rw [hgid]; exact hlook) v
    ⟨d.getD [], false, hrow1⟩
  rw [hdb] at hrow2
  rw [hid]
  exact mem_cachedSet_of_row hrow2

/-- Claim C4 witness: the idempotence theorem applied to a concrete
one-package archive.  A first run from the empty cache produces `dbIdem1`
and processes `a-1`; the second run over the same entries returns
`dbIdem1` unchanged and processes nothing. -/
theorem C4_update_idempotent_witness :
    update_cache_repo (str "core") entsIdem dbIdem1
      = Outcome.ok (dbIdem1, []) := by
  apply C4_update_idempotent (str "core") entsIdem ⟨[], []⟩ dbIdem1 [str "a-1"]
  · intro r hr
    cases hr
  · intro e he hf
    simp [entsIdem] at he
    rcases he with rfl | rfl
    · exact ⟨str "a", str "1", none, rfl, rfl⟩
    · exact absurd hf (by decide)
  · intro e he hf
    simp [entsIdem] at he
    rcases he with rfl | rfl
    · exact ⟨⟨str "a-1", str "files", [str "%FILES%", str "usr/bin/a"]⟩,
        by decide, rfl, rfl⟩
    · exact absurd hf (by decide)
  · intro e he f hfm hfd hffd n v d n2 v2 d2 hp hp2 hor
    simp [entsIdem] at he hfm
    rcases he with rfl | rfl
    · rcases hfm with rfl | rfl
      · have h1 : (some (str "a"), some (str "1"), (none : Option Str))
            = (some n, some v, d) := by
          rw [← hp]
          rfl
        have h2 : (some (str "a"), some (str "1"), (none : Option Str))
            = (some n2, some v2, d2) := by
          rw [← hp2]
          rfl
        simp only [Prod.mk.injEq, Option.some.injEq] at h1 h2
        obtain ⟨hn1, hv1, hd1⟩ := h1
        obtain ⟨hn2x, hv2x, hd2x⟩ := h2
        subst hn1
        subst hv1
        subst hd1
        subst hn2x
        subst hv2x
        subst hd2x
        exact ⟨rfl, rfl, rfl, rfl⟩
      · exact absurd hffd (by decide)
    · exact absurd hfd (by decide)
  · rfl
